import Mathlib

/-!
Verification of the vsc-modules Lmod-cache conversion pipeline
(`lib/vsc/modules/cache.py`): a shallow embedding of the version
comparator (`SoftwareVersion`), the cluster resolver (`cluster_map`),
the modulepath sequencer (`sort_modulepaths`), the software map builder
(`software_map`) and the cluster view materializer
(`software_cluster_view`), together with theorems settling the spec's
claims about them.

Python dicts are modelled as insertion-ordered association lists,
Python exceptions as `Except String`, and Python's stable `sorted` as a
stable insertion sort.  All definitions are structurally recursive
(fuel where needed) so that closed instances evaluate by `decide`.
-/

/-! ### Orderings: Python `<` on strings and lists of strings -/

/-- Three-way comparison on `Nat`. -/
def natCmp (a b : Nat) : Ordering :=
  if a < b then .lt else if a = b then .eq else .gt

/-- Three-way comparison on `Char` by code point, as Python compares
characters inside strings. -/
def charCmp (a b : Char) : Ordering := natCmp a.toNat b.toNat

/-- Lexicographic lifting of a three-way comparison to lists; this is
exactly Python's comparison of two lists (or of two strings viewed as
their character lists): pairwise element comparison, a strict prefix is
smaller. -/
def lexCmp (c : α → α → Ordering) : List α → List α → Ordering
  | [], [] => .eq
  | [], _ :: _ => .lt
  | _ :: _, [] => .gt
  | a :: as, b :: bs =>
    match c a b with
    | .eq => lexCmp c as bs
    | o => o

/-- Python's `<` on strings: lexicographic by code point. -/
def strCmp (a b : String) : Ordering := lexCmp charCmp a.data b.data

/-- `a <= b` on strings, Python order. -/
def strLe (a b : String) : Bool :=
  match strCmp a b with
  | .gt => false
  | _ => true

/-! ### Python's stable sort (`sorted` / `list.sort`)

`pySortBy le` is a stable insertion sort: an element is inserted in
front of the first element it is `le`-related to.  For a total preorder
`le` this coincides with Python's Timsort result: ascending order with
ties kept in original relative order (`le a b = not (b < a)`), and with
`reverse=True` modelled by flipping the comparison. -/

def insertSorted (le : α → α → Bool) (x : α) : List α → List α
  | [] => [x]
  | y :: ys => if le x y then x :: y :: ys else y :: insertSorted le x ys

def pySortBy (le : α → α → Bool) : List α → List α
  | [] => []
  | x :: xs => insertSorted le x (pySortBy le xs)

/-- Python `sorted` on a list of strings (ascending). -/
def sortStrings (l : List String) : List String := pySortBy strLe l

/-! ### Association lists: insertion-ordered Python dicts -/

/-- A Python dict with string keys, as an insertion-ordered association
list. -/
abbrev PyDict (β : Type) := List (String × β)

/-- `d[k]` lookup (first matching key). -/
def alGet (m : PyDict β) (k : String) : Option β :=
  match m with
  | [] => none
  | (k', v) :: rest => if k' = k then some v else alGet rest k

/-- `list(d.keys())`. -/
def alKeys (m : PyDict β) : List String := m.map (·.1)

/-- `d[k] = v`: replace in place if the key exists, else append. -/
def alInsert (m : PyDict β) (k : String) (v : β) : PyDict β :=
  match m with
  | [] => [(k, v)]
  | (k', v') :: rest =>
    if k' = k then (k', v) :: rest else (k', v') :: alInsert rest k v

/-- `d.setdefault(k, v)`: return the stored value (inserting `v` at the
end first when the key is absent) together with the updated dict. -/
def alSetdefault (m : PyDict β) (k : String) (v : β) : β × PyDict β :=
  match alGet m k with
  | some v' => (v', m)
  | none => (v, m ++ [(k, v)])

/-- `d.pop(k)`'s effect on the dict: remove the entry (first matching
key), keeping all other entries in order. -/
def alErase (m : PyDict β) (k : String) : PyDict β :=
  match m with
  | [] => []
  | (k', v') :: rest => if k' = k then rest else (k', v') :: alErase rest k

/-! ### `SoftwareVersion`: the version comparator

`SoftwareVersion.parse` splits a version string with the regex
`(v?\d+ | [a-z]+ | \.)` (verbose mode), keeping the text between
matches as residue components, drops empty pieces and literal dots, and
re-renders every component that `int(component.lstrip('v'))` accepts as
a 64-digit zero-padded decimal string.  The resulting component list
contains only strings, so `_cmp` (Python list comparison) is total. -/

def isDigitC (c : Char) : Bool := '0' ≤ c && c ≤ '9'

def isLowerC (c : Char) : Bool := 'a' ≤ c && c ≤ 'z'

/-- Emit a pending residue chunk (the text between regex matches);
empty residue produces nothing, matching the `if x` filter. -/
def flushRes (acc : List Char) : List String :=
  if acc = [] then [] else [⟨acc⟩]

/-- One pass of `component_re.split`, fuelled for structural recursion:
at each position the regex alternatives `v?\d+`, `[a-z]+`, `\.` are
tried in order; unmatched characters accumulate into residue chunks.
Literal-dot matches are dropped (the post-split filter).  The fuel is
never exhausted when it starts at `length + 1`. -/
def tokenizeAux : Nat → List Char → List Char → List String
  | 0, acc, rest => flushRes (acc ++ rest)
  | _ + 1, acc, [] => flushRes acc
  | fuel + 1, acc, c :: rest =>
    if isDigitC c then
      flushRes acc ++ [⟨c :: rest.takeWhile isDigitC⟩]
        ++ tokenizeAux fuel [] (rest.dropWhile isDigitC)
    else if c = 'v' && (match rest with | d :: _ => isDigitC d | [] => false) then
      flushRes acc ++ [⟨'v' :: rest.takeWhile isDigitC⟩]
        ++ tokenizeAux fuel [] (rest.dropWhile isDigitC)
    else if isLowerC c then
      flushRes acc ++ [⟨c :: rest.takeWhile isLowerC⟩]
        ++ tokenizeAux fuel [] (rest.dropWhile isLowerC)
    else if c = '.' then
      flushRes acc ++ tokenizeAux fuel [] rest
    else
      tokenizeAux fuel (acc ++ [c]) rest

/-- `[x for x in component_re.split(vstring) if x and x != '.']`. -/
def tokenize (s : String) : List String :=
  tokenizeAux (s.data.length + 1) [] s.data

/-- Value of a digit list, most significant first. -/
def digitsToNat (l : List Char) : Nat :=
  l.foldl (fun n c => 10 * n + (c.toNat - 48)) 0

/-- `int(obj.lstrip('v'))`: strip every leading `v`, succeed exactly on
a non-empty all-digit remainder. -/
def tryNumVal (t : String) : Option Nat :=
  let r := t.data.dropWhile (· = 'v')
  if r ≠ [] && r.all isDigitC then some (digitsToNat r) else none

/-- Decimal digits of `n`, fuelled. -/
def natDigitsAux : Nat → Nat → List Char
  | 0, _ => []
  | fuel + 1, n =>
    if n < 10 then [Char.ofNat (48 + n)]
    else natDigitsAux fuel (n / 10) ++ [Char.ofNat (48 + n % 10)]

def natRepr (n : Nat) : List Char := natDigitsAux (n + 1) n

/-- `"%064d" % n`: zero-pad to 64 characters (wider numbers unchanged). -/
def renderNum (n : Nat) : String :=
  let ds := natRepr n
  ⟨List.replicate (64 - ds.length) '0' ++ ds⟩

/-- `SoftwareVersion.parse`: the component list stored in
`self.version`.  Every component is a string. -/
def parseVersion (s : String) : List String :=
  (tokenize s).map fun t =>
    match tryNumVal t with
    | some n => renderNum n
    | none => t

/-- `SoftwareVersion._cmp`: Python comparison of the two all-string
component lists.  Comparing lists of strings never raises in Python,
so the comparator is total: the `try/except` wrapper in the source can
only re-raise exceptions that list-of-string comparison cannot
produce. -/
def svCmp (a b : String) : Ordering :=
  lexCmp strCmp (parseVersion a) (parseVersion b)

/-- `SoftwareVersion(a) >= SoftwareVersion(b)` (the keep-in-front test
of a descending stable sort). -/
def verGe (a b : String) : Bool :=
  match svCmp a b with
  | .lt => false
  | _ => true

/-- `sort_recent_versions`: `sorted(versions, key=SoftwareVersion,
reverse=True)` — stable, descending.  The `except TypeError` branch in
the source is unreachable for string inputs because every component is
rendered as a string. -/
def sort_recent_versions (versions : List String) : List String :=
  pySortBy verGe versions

/-! ### String helpers kept kernel-reducible -/

/-- Python `s.startswith(pre)`. -/
def strStartsWith (s pre : String) : Bool := pre.data.isPrefixOf s.data

/-- Python `s[n:]` (by characters). -/
def strDrop (s : String) (n : Nat) : String := ⟨s.data.drop n⟩

/-- Python `s.lstrip('.')`. -/
def lstripDots (s : String) : String := ⟨s.data.dropWhile (· = '.')⟩

/-- Python `s.split(sep)` for a one-character separator, on char
lists. -/
def splitChar (sep : Char) : List Char → List (List Char)
  | [] => [[]]
  | c :: rest =>
    let r := splitChar sep rest
    if c = sep then [] :: r
    else
      match r with
      | [] => [[c]]
      | p :: ps => (c :: p) :: ps

/-- Python `clmod.split('/')`. -/
def splitSlash (s : String) : List String := (splitChar '/' s.data).map (⟨·⟩)

/-- The reserved version key holding the default version map. -/
def DEFAULTKEY : String := ".default"

/-! ### `cluster_map`: the cluster resolver -/

/-- The two maps `cluster_map` builds: cluster → cluster module, and
modulepath → sorted list of clusters. -/
structure ClusterMaps where
  clustermap : PyDict String
  modulepathmap : PyDict (List String)
deriving DecidableEq

/-- The body of `cluster_map`'s inner loop for one cluster module
`clmod` found under modulepath `mpath`. -/
def processClmod (mpath clmod : String) (st : ClusterMaps) :
    Except String ClusterMaps :=
  let parts := (splitSlash clmod).drop 1
  match parts.head? with
  | none => .error "IndexError: list index out of range"
  | some p0 =>
    let clustername := lstripDots p0
    let step : Except String String :=
      if parts.length = 2 then
        let part1 := lstripDots (parts.getD 1 "")
        if (alKeys st.clustermap).contains clustername then
          .error ("Found existing cluster module " ++ clustername ++
            " for same cluster/partition " ++ part1)
        else .ok (clustername ++ "/" ++ part1)
      else
        let found := (alKeys st.clustermap).filter
          fun x => strStartsWith x (clustername ++ "/")
        if found ≠ [] then
          .error ("Found existing partitions for same cluster " ++
            clustername)
        else .ok clustername
    match step with
    | .error e => .error e
    | .ok cluster =>
      let (tmpclmod, cm) := alSetdefault st.clustermap cluster clmod
      if tmpclmod ≠ clmod then
        .error ("Found 2 different cluster modules " ++ tmpclmod ++ " and "
          ++ clmod ++ " for same cluster " ++ cluster)
      else
        let (mpclusters, mm) := alSetdefault st.modulepathmap mpath []
        let mpclusters := if mpclusters.contains cluster then mpclusters
          else mpclusters ++ [cluster]
        .ok ⟨cm, alInsert mm mpath (sortStrings mpclusters)⟩

/-- `cluster_map(mpathMapT)`: iterate every modulepath's module names,
handling those with the `cluster/` marker.  The per-path module data is
modelled by its key list (only `data.keys()` is read). -/
def cluster_map (mpathMapT : PyDict (List String)) :
    Except String ClusterMaps :=
  mpathMapT.foldlM
    (fun st (mpath, data) =>
      (data.filter fun x => strStartsWith x "cluster/").foldlM
        (fun st clmod => processClmod mpath clmod st) st)
    ⟨[], []⟩

/-! ### `sort_modulepaths`: the modulepath sequencer

`CLUSTER_DATA` is external configuration; only the per-entry
`EXTRA_MODULEPATHS` lists are read, so the embedding takes the list of
those lists as an argument. -/

/-- Keep absolute modulepaths present in the modulepath map, in
`spiderT` key order, then sort lexicographically. -/
def baselinePaths (spiderKeys mpmapKeys : List String) : List String :=
  sortStrings (spiderKeys.filter
    fun mpath => strStartsWith mpath "/" && mpmapKeys.contains mpath)

/-- For every configuration entry's extras list, in reverse of declared
order, move each extra (when present) to the end of the sequence. -/
def moveExtras (modulepaths : List String)
    (clusterData : List (List String)) : List String :=
  clusterData.foldl
    (fun mps extras =>
      extras.reverse.foldl
        (fun mps extra =>
          if mps.contains extra then mps.erase extra ++ [extra] else mps)
        mps)
    modulepaths

/-- `sort_modulepaths(spiderT, mpmap)` on the key lists of its two dict
arguments, with the `EXTRA_MODULEPATHS` lists of `CLUSTER_DATA` passed
explicitly. -/
def sort_modulepaths (spiderKeys mpmapKeys : List String)
    (clusterData : List (List String)) : List String :=
  moveExtras (baselinePaths spiderKeys mpmapKeys) clusterData

/-! ### `software_map`: the software map builder -/

/-- The fields of a `fileT` version record that the builder reads. -/
structure FileData where
  Version : String
  canonical : String
deriving DecidableEq

/-- One package's record under a modulepath: the `fileT` dict of
fullname → version record, and `defaultT`: `none` models a falsy
(absent/empty) `defaultT` table, `some v` one carrying `value = v`
(where `v` may be the empty string). -/
structure NameData where
  fileT : PyDict FileData
  defaultT : Option String
deriving DecidableEq

/-- A value of a package's map: version keys hold cluster lists, the
reserved `DEFAULTKEY` holds the cluster → default dict. -/
inductive PkgVal where
  | clusters (cs : List String)
  | defaults (d : PyDict String)
deriving DecidableEq

abbrev PkgMap := PyDict PkgVal
abbrev SoftMap := PyDict PkgMap
abbrev SpiderT := PyDict (PyDict NameData)

/-- The `fileT` loop body: sanity-check one version record, append its
version to `mpversions` and merge this modulepath's clusters into the
version's entry (`soft[version] = sorted(softversion + clusters)`). -/
def recordVersion (mpath name : String) (clusters : List String)
    (st : PkgMap × List String) (entry : String × FileData) :
    Except String (PkgMap × List String) :=
  let (soft, mpversions) := st
  let (fullname, fulldata) := entry
  let version := fulldata.Version
  if version ≠ fulldata.canonical then
    .error ("Version != canonical for modulepath " ++ mpath ++ " name " ++
      name ++ " fullname " ++ fullname)
  else if fullname ≠ name ++ "/" ++ version then
    .error ("fullname != name/version for modulepath " ++ mpath ++ " name "
      ++ name ++ " fullname " ++ fullname)
  else
    let mpversions := mpversions ++ [version]
    let (softversion, soft) := alSetdefault soft version (PkgVal.clusters [])
    match softversion with
    | .clusters cs =>
      .ok (alInsert soft version (.clusters (sortStrings (cs ++ clusters))),
        mpversions)
    | .defaults _ =>
      .error ("TypeError: can only concatenate list to list for version " ++
        version)

/-- `value[len(name)+1:]` when `value` starts with `name + "/"`, else
`value` itself. -/
def stripPkg (name value : String) : String :=
  if strStartsWith value (name ++ "/") then strDrop value (name.length + 1)
  else value

/-- `sort_recent_versions(mpversions)[0]`. -/
def defaultFromVersions (mpversions : List String) : Except String String :=
  match sort_recent_versions mpversions with
  | [] => throw "IndexError: list index out of range"
  | d :: _ => pure d

/-- The default-determination block for one (modulepath, package): an
explicit non-empty `defaultT` value is prefix-stripped and must be a
key of the accumulated package map; a falsy result falls back to the
most recent of this modulepath's own versions. -/
def computeDefault (mpath name : String) (nd : NameData) (soft : PkgMap)
    (mpversions : List String) : Except String String :=
  match nd.defaultT with
  | some value =>
    if value ≠ "" then
      let d := stripPkg name value
      if (alKeys soft).contains d then
        if d = "" then defaultFromVersions mpversions else .ok d
      else
        .error ("Default value " ++ d ++ " found for " ++ name ++
          " modulepath " ++ mpath ++ " but not matching entry")
    else defaultFromVersions mpversions
  | none => defaultFromVersions mpversions

/-- Record `default` for every cluster of this modulepath under the
reserved key, first writer wins (`softdefault.setdefault(cluster,
default)`). -/
def recordDefaults (clusters : List String) (default : String)
    (soft : PkgMap) : Except String PkgMap :=
  let (softdefault, soft) := alSetdefault soft DEFAULTKEY (.defaults [])
  match softdefault with
  | .defaults d =>
    let d := clusters.foldl
      (fun d cluster => (alSetdefault d cluster default).2) d
    .ok (alInsert soft DEFAULTKEY (.defaults d))
  | .clusters _ =>
    .error "AttributeError: list object has no attribute setdefault"

/-- The whole per-(modulepath, package) body of `software_map`'s loop. -/
def processName (mpath : String) (clusters : List String) (soft : PkgMap)
    (name : String) (nd : NameData) : Except String PkgMap :=
  match nd.fileT.foldlM (recordVersion mpath name clusters) (soft, []) with
  | .error e => .error e
  | .ok (soft, mpversions) =>
    match computeDefault mpath name nd soft mpversions with
    | .error e => .error e
    | .ok default => recordDefaults clusters default soft

/-- The body of `software_map`'s per-package iteration at one
modulepath: `soft = softmap.setdefault(name, {})`, process the record,
store the result back. -/
def processNameStep (mpath : String) (clusters : List String)
    (softmap : SoftMap) (e : String × NameData) : Except String SoftMap :=
  let (soft, softmap) := alSetdefault softmap e.1 []
  match processName mpath clusters soft e.1 e.2 with
  | .error err => .error err
  | .ok soft => .ok (alInsert softmap e.1 soft)

/-- Processing of one sequenced modulepath. -/
def processMpath (spiderT : SpiderT) (mpmap : PyDict (List String))
    (softmap : SoftMap) (mpath : String) : Except String SoftMap :=
  match alGet mpmap mpath with
  | none => .error ("KeyError: " ++ mpath)
  | some clusters =>
    match alGet spiderT mpath with
    | none => .error ("KeyError: " ++ mpath)
    | some namedata =>
      namedata.foldlM (processNameStep mpath clusters) softmap

/-- `software_map(spiderT, mpmap)` with the external `CLUSTER_DATA`
extras passed explicitly. -/
def software_map (spiderT : SpiderT) (mpmap : PyDict (List String))
    (clusterData : List (List String)) : Except String SoftMap :=
  (sort_modulepaths (alKeys spiderT) (alKeys mpmap) clusterData).foldlM
    (processMpath spiderT mpmap) []

/-! ### `software_cluster_view`: the cluster view materializer

The Python function mutates its input dict (`vdata.pop(DEFAULTKEY)`),
so the embedding passes the softmap state explicitly and returns the
cluster view together with the softmap as it is left behind. -/

abbrev ClView := PyDict (PyDict (List String))

/-- `for cluster in defaults.keys(): clview.setdefault(cluster,
{}).setdefault(name, [])`. -/
def ensureEntries (name : String) (defaults : PyDict String)
    (clview : ClView) : ClView :=
  defaults.foldl
    (fun cv (cluster, _) =>
      let (clsoft, cv) := alSetdefault cv cluster []
      let (_, clsoft) := alSetdefault clsoft name []
      alInsert cv cluster clsoft)
    clview

/-- Python `for cluster in clusters` iterates a list's elements and a
dict's keys. -/
def clusterKeysOf : PkgVal → List String
  | .clusters cs => cs
  | .defaults d => alKeys d

/-- `clview[cluster][name].append(version)`. -/
def appendVersion (name version : String) (clview : ClView)
    (cluster : String) : Except String ClView :=
  match alGet clview cluster with
  | none => .error ("KeyError: " ++ cluster)
  | some clsoft =>
    match alGet clsoft name with
    | none => .error ("KeyError: " ++ name)
    | some versions =>
      .ok (alInsert clview cluster
        (alInsert clsoft name (versions ++ [version])))

/-- The final per-(cluster, default) block: sort the collected list
descending, remove the default (aborting when absent, as the source's
error path does) and reinsert it at the front. -/
def finalizeCluster (name : String) (clview : ClView)
    (entry : String × String) : Except String ClView :=
  let (cluster, default) := entry
  match alGet clview cluster with
  | none => .error ("KeyError: " ++ cluster)
  | some clsoft =>
    match alGet clsoft name with
    | none => .error ("KeyError: " ++ name)
    | some vs =>
      let versions := sort_recent_versions vs
      if versions.contains default then
        .ok (alInsert clview cluster
          (alInsert clsoft name (default :: versions.erase default)))
      else
        .error ("Unable to remove default " ++ default ++
          " from versions for " ++ name ++ " cluster " ++ cluster)

/-- The loop body of `software_cluster_view` for one package: pop the
defaults entry out of the package's map, create the nested cluster →
name entries, append every version to its clusters' lists, then
finalize each cluster's list.  The second state component records the
package maps as the mutation leaves them. -/
def processPackage (st : ClView × SoftMap) (entry : String × PkgMap) :
    Except String (ClView × SoftMap) :=
  let (clview, outmap) := st
  let (name, vdata) := entry
  match alGet vdata DEFAULTKEY with
  | some (.clusters _) =>
    .error "AttributeError: list object has no attribute keys"
  | none => .error ("KeyError: " ++ DEFAULTKEY)
  | some (.defaults defaults) =>
    let vdata := alErase vdata DEFAULTKEY
    let clview := ensureEntries name defaults clview
    match vdata.foldlM
        (fun cv (version, clusters) =>
          (clusterKeysOf clusters).foldlM (appendVersion name version) cv)
        clview with
    | .error e => .error e
    | .ok clview =>
      match defaults.foldlM (finalizeCluster name) clview with
      | .error e => .error e
      | .ok clview => .ok (clview, outmap ++ [(name, vdata)])

/-- `software_cluster_view(softmap)`: the produced cluster view and the
state in which the input softmap is left. -/
def software_cluster_view (softmap : SoftMap) :
    Except String (ClView × SoftMap) :=
  softmap.foldlM processPackage ([], [])

/-! ### Derived notions used to state the claims -/

/-- A component that `int(component.lstrip('v'))` accepted (re-rendered
zero-padded) is numeric; the others are textual. -/
def componentIsNum (t : String) : Bool := (tryNumVal t).isSome

/-- Positional compatibility of two version strings' component
sequences: at every shared index the components have the same kind. -/
def positionallyCompatible (a b : String) : Bool :=
  ((tokenize a).zip (tokenize b)).all
    fun p => componentIsNum p.1 == componentIsNum p.2

/-- The versions recorded for a package at one modulepath (the
`mpversions` list built by `software_map`'s inner loop). -/
def mpVersions (spiderT : SpiderT) (mpath name : String) : List String :=
  match alGet spiderT mpath with
  | some nds =>
    match alGet nds name with
    | some nd => nd.fileT.map (·.2.Version)
    | none => []
  | none => []

/-- The default version a softmap records for a package on a cluster. -/
def recordedDefault (softmap : SoftMap) (name cluster : String) :
    Option String :=
  match alGet softmap name with
  | some soft =>
    match alGet soft DEFAULTKEY with
    | some (.defaults d) => alGet d cluster
    | _ => none
  | none => none

/-- The clusters recorded for one version of a package. -/
def versionClusters (softmap : SoftMap) (name version : String) :
    Option (List String) :=
  match alGet softmap name with
  | some soft =>
    match alGet soft version with
    | some (.clusters cs) => some cs
    | _ => none
  | none => none

/-- The key set of a package's defaults entry. -/
def defaultsKeys (soft : PkgMap) : List String :=
  match alGet soft DEFAULTKEY with
  | some (.defaults d) => alKeys d
  | _ => []

/-- A modulepath serves a (package, cluster) pair when the package
appears under it in the spider table and the cluster is among the
modulepath's clusters. -/
def servesPkgCluster (spiderT : SpiderT) (mpmap : PyDict (List String))
    (name cluster mpath : String) : Bool :=
  (match alGet spiderT mpath with
   | some nds => (alKeys nds).contains name
   | none => false) &&
  (match alGet mpmap mpath with
   | some cs => cs.contains cluster
   | none => false)

/-- The truthy explicit default of a package record, after the
`package/` prefix strip (`None` when the declaration is absent, empty,
or strips to the empty string). -/
def declaredDefault (name : String) (nd : NameData) : Option String :=
  match nd.defaultT with
  | some v =>
    if v = "" then none
    else if stripPkg name v = "" then none else some (stripPkg name v)
  | none => none

/-- The fallback default: most recent of the record's own versions. -/
def fallbackDefault (nd : NameData) : Option String :=
  (sort_recent_versions (nd.fileT.map (·.2.Version))).head?

/-- The default value `software_map` determines for one (modulepath,
package) record when it does not abort. -/
def mpathDefault (name : String) (nd : NameData) : Option String :=
  match declaredDefault name nd with
  | some d => some d
  | none => fallbackDefault nd

/-- Cluster occurrences contributed to `version` by a record list:
`clusters`, once per record carrying that version. -/
def filesClustersFor (clusters : List String)
    (es : List (String × FileData)) (version : String) : List String :=
  ((es.filter fun e => e.2.Version = version).map fun _ => clusters).flatten

/-- How many times one fileT record set exposes `version` to `cluster`:
its clusters, once per matching version record. -/
def entryClustersFor (clusters : List String) (nd : NameData)
    (version : String) : List String :=
  filesClustersFor clusters nd.fileT version

/-- Whether a modulepath's record of a package exposes a version. -/
def exposesVersion (spiderT : SpiderT) (mpath name version : String) :
    Bool :=
  match alGet spiderT mpath with
  | some nds =>
    match alGet nds name with
    | some nd => nd.fileT.any fun e => e.2.Version = version
    | none => false
  | none => false

/-- All cluster occurrences contributed to one (package, version) pair
by a sequence of modulepaths, in processing order. -/
def exposuresClusters (spiderT : SpiderT) (mpmap : PyDict (List String))
    (seq : List String) (name version : String) : List String :=
  (seq.map fun mp =>
    match alGet spiderT mp, alGet mpmap mp with
    | some nds, some cs =>
      match alGet nds name with
      | some nd => entryClustersFor cs nd version
      | none => []
    | _, _ => []).flatten

/-- Lookup of one cluster's version list in a cluster view. -/
def clviewVersions (clview : ClView) (cluster name : String) :
    Option (List String) :=
  match alGet clview cluster with
  | some clsoft => alGet clsoft name
  | none => none

/-- The cluster list a version key currently holds (empty when the key
is absent; a defaults value would make the builder raise). -/
def oldClustersD (soft : PkgMap) (k : String) : List String :=
  match alGet soft k with
  | some (.clusters cs) => cs
  | _ => []

/-- The default recorded for a cluster inside one package's map. -/
def pkgDefaultOf (soft : PkgMap) (c : String) : Option String :=
  match alGet soft DEFAULTKEY with
  | some (.defaults d) => alGet d c
  | _ => none

/-- The raw value a softmap holds for a package's version key. -/
def smVal (m : SoftMap) (n v : String) : Option PkgVal :=
  (alGet m n).bind fun soft => alGet soft v

/-- The cluster list behind `smVal`, empty when absent. -/
def smClustersD (m : SoftMap) (n v : String) : List String :=
  match smVal m n v with
  | some (.clusters cs) => cs
  | _ => []

/-! ### Concrete inputs for the counterexamples and witnesses -/

/-- Two modulepaths serving the same cluster `c1`; `/p1` records
version `1` of `foo`, `/p2` records version `2` with an explicit
default declaration naming `1`. -/
def ex3spider : SpiderT :=
  [("/p1", [("foo", ⟨[("foo/1", ⟨"1", "1"⟩)], none⟩)]),
   ("/p2", [("foo", ⟨[("foo/2", ⟨"2", "2"⟩)], some "1"⟩)])]

def ex3mpmap : PyDict (List String) := [("/p1", ["c1"]), ("/p2", ["c1"])]

/-- Two modulepaths serving the same cluster, both exposing `foo/1`. -/
def ex5spider : SpiderT :=
  [("/p1", [("foo", ⟨[("foo/1", ⟨"1", "1"⟩)], none⟩)]),
   ("/p2", [("foo", ⟨[("foo/1", ⟨"1", "1"⟩)], none⟩)])]

/-- Like `ex5spider` with an extra version `2` under `/p1`. -/
def ex6spider : SpiderT :=
  [("/p1", [("foo", ⟨[("foo/1", ⟨"1", "1"⟩), ("foo/2", ⟨"2", "2"⟩)],
      none⟩)]),
   ("/p2", [("foo", ⟨[("foo/1", ⟨"1", "1"⟩)], none⟩)])]

/-- The spec's end-to-end default-resolution scenario: one modulepath,
two GCCcore versions, no explicit default. -/
def ex7spider : SpiderT :=
  [("/p1", [("pkg",
    ⟨[("pkg/20180311-GCCcore-8.2.0",
        ⟨"20180311-GCCcore-8.2.0", "20180311-GCCcore-8.2.0"⟩),
      ("pkg/20180311-GCCcore-8.3.0",
        ⟨"20180311-GCCcore-8.3.0", "20180311-GCCcore-8.3.0"⟩)],
      none⟩)])]

def ex7mpmap : PyDict (List String) := [("/p1", ["c1", "c2"])]

/-! ### Order-theoretic facts about the comparators -/

theorem natCmp_eq_iff (a b : Nat) : natCmp a b = .eq ↔ a = b := by
  unfold natCmp
  rcases Nat.lt_trichotomy a b with h | h | h
  · have h2 : ¬ a = b := by omega
    simp [h, h2]
  · simp [h]
  · have h1 : ¬ a < b := by omega
    have h2 : ¬ a = b := by omega
    simp [h1, h2]

theorem natCmp_lt_iff (a b : Nat) : natCmp a b = .lt ↔ a < b := by
  unfold natCmp
  rcases Nat.lt_trichotomy a b with h | h | h
  · simp [h]
  · have h1 : ¬ a < b := by omega
    simp [h, h1]
  · have h1 : ¬ a < b := by omega
    have h2 : ¬ a = b := by omega
    simp [h1, h2]

theorem natCmp_swap (a b : Nat) : natCmp b a = (natCmp a b).swap := by
  unfold natCmp
  rcases Nat.lt_trichotomy a b with h | h | h
  · have h1 : ¬ b < a := by omega
    have h2 : ¬ b = a := by omega
    simp [h, h1, h2, Ordering.swap]
  · have h1 : ¬ a < b := by omega
    have h2 : ¬ b < a := by omega
    simp [h, h1, h2, Ordering.swap]
  · have h1 : ¬ a < b := by omega
    have h2 : ¬ a = b := by omega
    simp [h, h1, h2, Ordering.swap]

theorem charCmp_eq_iff (a b : Char) : charCmp a b = .eq ↔ a = b := by
  unfold charCmp
  rw [natCmp_eq_iff]
  constructor
  · intro h; exact Char.eq_of_val_eq (UInt32.ext h)
  · intro h; rw [h]

theorem charCmp_swap (a b : Char) : charCmp b a = (charCmp a b).swap :=
  natCmp_swap _ _

theorem charCmp_lt_trans {a b c : Char} (h₁ : charCmp a b = .lt)
    (h₂ : charCmp b c = .lt) : charCmp a c = .lt := by
  unfold charCmp at *
  rw [natCmp_lt_iff] at *
  omega

section LexCmp

variable {α : Type} {c : α → α → Ordering}

theorem lexCmp_cons (a b : α) (as bs : List α) :
    lexCmp c (a :: as) (b :: bs) =
      match c a b with
      | .eq => lexCmp c as bs
      | o => o := rfl

theorem lexCmp_eq_iff (hc : ∀ a b, c a b = .eq ↔ a = b) :
    ∀ l₁ l₂ : List α, lexCmp c l₁ l₂ = .eq ↔ l₁ = l₂ := by
  intro l₁
  induction l₁ with
  | nil => intro l₂; cases l₂ <;> simp [lexCmp]
  | cons a as ih =>
    intro l₂
    cases l₂ with
    | nil => simp [lexCmp]
    | cons b bs =>
      rw [lexCmp_cons]
      rcases h : c a b with _ | _ | _
      · simp only []
        constructor
        · intro h'; exact absurd h' (by simp)
        · intro h'
          rw [(hc a b).mpr (by injection h')] at h
          exact absurd h (by simp)
      · have hab : a = b := (hc a b).mp h
        subst hab
        simp [ih]
      · simp only []
        constructor
        · intro h'; exact absurd h' (by simp)
        · intro h'
          rw [(hc a b).mpr (by injection h')] at h
          exact absurd h (by simp)

theorem lexCmp_swap (hc : ∀ a b, c b a = (c a b).swap) :
    ∀ l₁ l₂ : List α, lexCmp c l₂ l₁ = (lexCmp c l₁ l₂).swap := by
  intro l₁
  induction l₁ with
  | nil => intro l₂; cases l₂ <;> simp [lexCmp, Ordering.swap]
  | cons a as ih =>
    intro l₂
    cases l₂ with
    | nil => simp [lexCmp, Ordering.swap]
    | cons b bs =>
      rw [lexCmp_cons, lexCmp_cons, hc a b]
      rcases h : c a b with _ | _ | _ <;> simp [Ordering.swap, ih]

theorem lexCmp_lt_trans (hceq : ∀ a b, c a b = .eq ↔ a = b)
    (hclt : ∀ {a b d}, c a b = .lt → c b d = .lt → c a d = .lt) :
    ∀ {l₁ l₂ l₃ : List α}, lexCmp c l₁ l₂ = .lt → lexCmp c l₂ l₃ = .lt →
      lexCmp c l₁ l₃ = .lt := by
  intro l₁
  induction l₁ with
  | nil =>
    intro l₂ l₃ h₁ h₂
    cases l₂ with
    | nil => simp [lexCmp] at h₁
    | cons b bs =>
      cases l₃ with
      | nil => simp [lexCmp] at h₂
      | cons d ds => simp [lexCmp]
  | cons a as ih =>
    intro l₂ l₃ h₁ h₂
    cases l₂ with
    | nil => simp [lexCmp] at h₁
    | cons b bs =>
      cases l₃ with
      | nil => simp [lexCmp] at h₂
      | cons d ds =>
        rw [lexCmp_cons] at h₁ h₂ ⊢
        rcases hab : c a b with _ | _ | _ <;> rw [hab] at h₁
        · -- c a b = .lt
          rcases hbd : c b d with _ | _ | _ <;> rw [hbd] at h₂
          · rw [hclt hab hbd]
          · have : b = d := (hceq b d).mp hbd
            subst this
            rw [hab]
          · exact absurd h₂ (by simp)
        · -- c a b = .eq
          have : a = b := (hceq a b).mp hab
          subst this
          rcases had : c a d with _ | _ | _
          · rfl
          · rw [had] at h₂; exact ih h₁ h₂
          · rw [had] at h₂; simp at h₂
        · exact absurd h₁ (by simp)

end LexCmp

theorem strCmp_eq_iff (a b : String) : strCmp a b = .eq ↔ a = b := by
  unfold strCmp
  rw [lexCmp_eq_iff charCmp_eq_iff]
  constructor
  · intro h; cases a; cases b; simp_all
  · intro h; rw [h]

theorem strCmp_swap (a b : String) : strCmp b a = (strCmp a b).swap :=
  lexCmp_swap charCmp_swap _ _

theorem strCmp_lt_trans {a b c : String} (h₁ : strCmp a b = .lt)
    (h₂ : strCmp b c = .lt) : strCmp a c = .lt :=
  lexCmp_lt_trans charCmp_eq_iff (fun hx hy => charCmp_lt_trans hx hy) h₁ h₂

theorem strCmp_refl (a : String) : strCmp a a = .eq := (strCmp_eq_iff a a).mpr rfl

theorem strLe_total (a b : String) : strLe a b || strLe b a := by
  unfold strLe
  rcases h : strCmp a b with _ | _ | _
  · have h' : strCmp b a = .gt := by rw [strCmp_swap, h]; rfl
    rw [h']; simp
  · have h' : strCmp b a = .eq := by rw [strCmp_swap, h]; rfl
    rw [h']; simp
  · have h' : strCmp b a = .lt := by rw [strCmp_swap, h]; rfl
    rw [h']; simp

theorem strLe_trans {a b c : String} (h₁ : strLe a b) (h₂ : strLe b c) :
    strLe a c := by
  unfold strLe at *
  rcases hab : strCmp a b with _ | _ | _ <;> rw [hab] at h₁
  · rcases hbc : strCmp b c with _ | _ | _ <;> rw [hbc] at h₂
    · rw [strCmp_lt_trans hab hbc]
    · have : b = c := (strCmp_eq_iff b c).mp hbc
      subst this
      rw [hab]
    · exact absurd h₂ (by simp)
  · have : a = b := (strCmp_eq_iff a b).mp hab
    subst this
    exact h₂
  · exact absurd h₁ (by simp)

theorem strLe_antisymm {a b : String} (h₁ : strLe a b) (h₂ : strLe b a) :
    a = b := by
  unfold strLe at *
  rcases h : strCmp a b with _ | _ | _ <;> rw [h] at h₁
  · have h' : strCmp b a = .gt := by rw [strCmp_swap, h]; rfl
    rw [h'] at h₂
    exact absurd h₂ (by simp)
  · exact (strCmp_eq_iff a b).mp h
  · exact absurd h₁ (by simp)

theorem svCmp_swap (a b : String) : svCmp b a = (svCmp a b).swap :=
  lexCmp_swap strCmp_swap _ _

theorem svCmp_eq_parse {a b : String} (h : svCmp a b = .eq) :
    parseVersion a = parseVersion b :=
  (lexCmp_eq_iff strCmp_eq_iff _ _).mp h

theorem svCmp_refl (a : String) : svCmp a a = .eq :=
  (lexCmp_eq_iff strCmp_eq_iff _ _).mpr rfl

theorem svCmp_lt_trans {a b c : String} (h₁ : svCmp a b = .lt)
    (h₂ : svCmp b c = .lt) : svCmp a c = .lt :=
  lexCmp_lt_trans strCmp_eq_iff (fun hx hy => strCmp_lt_trans hx hy) h₁ h₂

theorem verGe_refl (a : String) : verGe a a := by
  unfold verGe; rw [svCmp_refl]

theorem verGe_total (a b : String) : verGe a b || verGe b a := by
  unfold verGe
  rcases h : svCmp a b with _ | _ | _
  · have h' : svCmp b a = .gt := by rw [svCmp_swap, h]; rfl
    rw [h']; simp
  · have h' : svCmp b a = .eq := by rw [svCmp_swap, h]; rfl
    rw [h']; simp
  · have h' : svCmp b a = .lt := by rw [svCmp_swap, h]; rfl
    rw [h']; simp

theorem verGe_trans {a b c : String} (h₁ : verGe a b) (h₂ : verGe b c) :
    verGe a c := by
  unfold verGe at *
  rcases hab : svCmp a b with _ | _ | _ <;> rw [hab] at h₁
  · exact absurd h₁ (by simp)
  · have hab' : parseVersion a = parseVersion b := svCmp_eq_parse hab
    have heq : svCmp a c = svCmp b c := by unfold svCmp; rw [hab']
    rw [heq]; exact h₂
  · rcases hbc : svCmp b c with _ | _ | _ <;> rw [hbc] at h₂
    · exact absurd h₂ (by simp)
    · have hbc' : parseVersion b = parseVersion c := svCmp_eq_parse hbc
      have heq : svCmp a c = svCmp a b := by unfold svCmp; rw [hbc']
      rw [heq, hab]
    · have h₁' : svCmp b a = .lt := by rw [svCmp_swap, hab]; rfl
      have h₂' : svCmp c b = .lt := by rw [svCmp_swap, hbc]; rfl
      have hca : svCmp c a = .lt := svCmp_lt_trans h₂' h₁'
      have hac : svCmp a c = .gt := by rw [svCmp_swap, hca]; rfl
      rw [hac]

/-! ### Facts about the stable sort -/

theorem insertSorted_perm (le : α → α → Bool) (x : α) :
    ∀ l : List α, (insertSorted le x l).Perm (x :: l) := by
  intro l
  induction l with
  | nil => simp [insertSorted]
  | cons y ys ih =>
    unfold insertSorted
    split
    · exact List.Perm.refl _
    · exact (List.Perm.cons y ih).trans (List.Perm.swap x y ys)

theorem pySortBy_perm (le : α → α → Bool) :
    ∀ l : List α, (pySortBy le l).Perm l := by
  intro l
  induction l with
  | nil => simp [pySortBy]
  | cons x xs ih =>
    unfold pySortBy
    exact ((insertSorted_perm le x _).trans (List.Perm.cons x ih))

theorem insertSorted_pairwise (le : α → α → Bool)
    (htot : ∀ a b, le a b || le b a)
    (htrans : ∀ {a b c}, le a b → le b c → le a c) (x : α) :
    ∀ l : List α, l.Pairwise (le · ·) →
      (insertSorted le x l).Pairwise (le · ·) := by
  intro l
  induction l with
  | nil => intro _; simp [insertSorted]
  | cons y ys ih =>
    intro hp
    rw [List.pairwise_cons] at hp
    obtain ⟨hy, hys⟩ := hp
    unfold insertSorted
    split <;> rename_i hle
    · rw [List.pairwise_cons]
      refine ⟨?_, ?_⟩
      · intro z hz
        rcases List.mem_cons.mp hz with h | h
        · subst h; exact hle
        · exact htrans hle (hy z h)
      · rw [List.pairwise_cons]; exact ⟨hy, hys⟩
    · rw [List.pairwise_cons]
      refine ⟨?_, ih hys⟩
      intro z hz
      have hz' : z ∈ x :: ys := (insertSorted_perm le x ys).mem_iff.mp hz
      rcases List.mem_cons.mp hz' with h | h
      · rw [h]
        rcases Bool.or_eq_true _ _ |>.mp (htot x y) with h' | h'
        · exact absurd h' (by simp [hle])
        · exact h'
      · exact hy z h

theorem pySortBy_pairwise (le : α → α → Bool)
    (htot : ∀ a b, le a b || le b a)
    (htrans : ∀ {a b c}, le a b → le b c → le a c) :
    ∀ l : List α, (pySortBy le l).Pairwise (le · ·) := by
  intro l
  induction l with
  | nil => simp [pySortBy]
  | cons x xs ih =>
    unfold pySortBy
    exact insertSorted_pairwise le htot htrans x _ ih

/-- Two lists sorted by `strLe` that are permutations of each other are
equal (the sorted permutation of a string list is unique). -/
theorem sortedStr_unique {l₁ l₂ : List String}
    (hpm : l₁.Perm l₂) (h₁ : l₁.Pairwise (strLe · ·))
    (h₂ : l₂.Pairwise (strLe · ·)) : l₁ = l₂ := by
  haveI : IsAntisymm String (fun a b => strLe a b = true) :=
    ⟨fun _ _ ha hb => strLe_antisymm ha hb⟩
  exact List.eq_of_perm_of_sorted hpm h₁ h₂

theorem sortStrings_perm (l : List String) : (sortStrings l).Perm l :=
  pySortBy_perm strLe l

theorem sortStrings_pairwise (l : List String) :
    (sortStrings l).Pairwise (strLe · ·) :=
  pySortBy_pairwise strLe strLe_total (fun ha hb => strLe_trans ha hb) l

/-- Re-sorting an already sorted prefix is harmless:
`sorted(sorted(a) ++ b) = sorted(a ++ b)`. -/
theorem sortStrings_append_left (a b : List String) :
    sortStrings (sortStrings a ++ b) = sortStrings (a ++ b) := by
  apply sortedStr_unique
  · exact (sortStrings_perm _).trans
      (((sortStrings_perm a).append_right b).trans (sortStrings_perm (a ++ b)).symm)
  · exact sortStrings_pairwise _
  · exact sortStrings_pairwise _

theorem sort_recent_versions_perm (l : List String) :
    (sort_recent_versions l).Perm l :=
  pySortBy_perm verGe l

theorem sort_recent_versions_pairwise (l : List String) :
    (sort_recent_versions l).Pairwise (verGe · ·) :=
  pySortBy_pairwise verGe verGe_total (fun ha hb => verGe_trans ha hb) l

/-- The head of the descending sort is at least every list element. -/
theorem sort_recent_versions_head_ge {l : List String} {d : String}
    {rest : List String} (h : sort_recent_versions l = d :: rest) :
    ∀ v ∈ l, verGe d v := by
  intro v hv
  have hv' : v ∈ d :: rest := by
    rw [← h]
    exact ((sort_recent_versions_perm l).mem_iff).mpr hv
  rcases List.mem_cons.mp hv' with h' | h'
  · subst h'; exact verGe_refl v
  · have hp := sort_recent_versions_pairwise l
    rw [h, List.pairwise_cons] at hp
    exact hp.1 v h'

/-! ### Claim theorems -/

/-- C1 (counterexample): the two version strings from the repository's
own test have positionally incompatible component sequences (a numeric
component aligned against the textual `binutils` at index 8), yet the
comparator returns a definite order instead of raising, and
`sort_recent_versions` sorts the pair without reporting a failure. -/
theorem c1_counterexample :
    positionallyCompatible "1.2.8-GCC-4.9.3-2.25"
        "1.2.8-GCC-4.9.3-binutils-2.25" = false
    ∧ svCmp "1.2.8-GCC-4.9.3-2.25" "1.2.8-GCC-4.9.3-binutils-2.25" =
        .lt
    ∧ sort_recent_versions
        ["1.2.8-GCC-4.9.3-2.25", "1.2.8-GCC-4.9.3-binutils-2.25"] =
        ["1.2.8-GCC-4.9.3-binutils-2.25", "1.2.8-GCC-4.9.3-2.25"] :=
  ⟨by decide, by decide, by decide⟩

/-- C1 (amended): comparing any two version strings — positionally
compatible or not — never raises: `svCmp` always returns one of the
three orders, and `sort_recent_versions` always returns a permutation
of its input that is descending under the comparator, rather than
propagating a comparison failure. -/
theorem c1_amended (a b : String) (versions : List String) :
    (svCmp a b = .lt ∨ svCmp a b = .eq ∨ svCmp a b = .gt)
    ∧ (sort_recent_versions versions).Perm versions
    ∧ (sort_recent_versions versions).Pairwise (verGe · ·) := by
  refine ⟨?_, sort_recent_versions_perm versions,
    sort_recent_versions_pairwise versions⟩
  rcases h : svCmp a b with _ | _ | _
  · exact Or.inl rfl
  · exact Or.inr (Or.inl rfl)
  · exact Or.inr (Or.inr rfl)

/-- C2 (counterexample): with baseline lexicographic order
`[/a, /b, /c]` and one configuration entry declaring extras
`[/b, /a]`, the sequencer returns `[/c, /a, /b]`: `/a` comes before
`/b`, not `/b` before `/a` as the claim states. -/
theorem c2_counterexample :
    baselinePaths ["/a", "/b", "/c"] ["/a", "/b", "/c"] =
      ["/a", "/b", "/c"]
    ∧ sort_modulepaths ["/a", "/b", "/c"] ["/a", "/b", "/c"]
        [["/b", "/a"]] = ["/c", "/a", "/b"]
    ∧ List.indexOf "/a" ["/c", "/a", "/b"] <
        List.indexOf "/b" ["/c", "/a", "/b"] :=
  ⟨by decide, by decide, by decide⟩

/-- C2 (amended): for a baseline lexicographically sorted retained
order `[A, B, C]` and exactly one external configuration entry with
extras `[B, A]` in declared prepend order, the sequencer returns
`[C, A, B]`: A comes before B, and both come after C. -/
theorem c2_amended (A B C : String) (spiderKeys mpmapKeys : List String)
    (h : baselinePaths spiderKeys mpmapKeys = [A, B, C]) :
    sort_modulepaths spiderKeys mpmapKeys [[B, A]] = [C, A, B] := by
  unfold sort_modulepaths moveExtras
  rw [h]
  simp [List.erase_cons_head]

/-- C2 (witness): the amended sequencing applied to the concrete
baseline `[/a, /b, /c]`. -/
theorem c2_amended_witness :
    sort_modulepaths ["/a", "/b", "/c"] ["/a", "/b", "/c"]
      [["/b", "/a"]] = ["/c", "/a", "/b"] :=
  c2_amended "/a" "/b" "/c" _ _ (by decide)

/-- C8: the cluster resolver on a modulepath exposing
`cluster/cluster1`, `cluster/cluster2/.part1`, `cluster/cluster2/part2`
and a second one exposing `cluster/.cluster3` produces exactly the
claimed ClusterMap and ModulePathClusterMap; the leading dots mark
hidden entries without changing their identities. -/
theorem c8_theorem :
    cluster_map
      [("/abc", ["cluster/cluster1", "cluster/cluster2/.part1",
        "cluster/cluster2/part2"]),
       ("/def", ["cluster/.cluster3"])] =
    .ok ⟨[("cluster1", "cluster/cluster1"),
          ("cluster2/part1", "cluster/cluster2/.part1"),
          ("cluster2/part2", "cluster/cluster2/part2"),
          ("cluster3", "cluster/.cluster3")],
         [("/abc", ["cluster1", "cluster2/part1", "cluster2/part2"]),
          ("/def", ["cluster3"])]⟩ := rfl

/-! ### Facts about the dict model -/

theorem alGet_append (m m' : PyDict β) (k : String) :
    alGet (m ++ m') k = ((alGet m k).orElse fun _ => alGet m' k) := by
  induction m with
  | nil => simp [alGet, Option.orElse]
  | cons e rest ih =>
    obtain ⟨k', v⟩ := e
    by_cases h : k' = k <;> simp [alGet, h, ih, Option.orElse]

theorem alGet_alInsert (m : PyDict β) (k k' : String) (v : β) :
    alGet (alInsert m k v) k' = if k = k' then some v else alGet m k' := by
  induction m with
  | nil => by_cases h : k = k' <;> simp [alInsert, alGet, h]
  | cons e rest ih =>
    obtain ⟨k₀, v₀⟩ := e
    by_cases h₀ : k₀ = k
    · subst h₀
      by_cases h : k₀ = k' <;> simp [alInsert, alGet, h]
    · by_cases h : k₀ = k'
      · subst h
        have hne : ¬ k = k₀ := fun hh => h₀ hh.symm
        simp [alInsert, alGet, h₀, hne]
      · simp [alInsert, alGet, h₀, h, ih]

theorem mem_alKeys_iff (m : PyDict β) (k : String) :
    k ∈ alKeys m ↔ (alGet m k).isSome := by
  induction m with
  | nil => simp [alKeys, alGet]
  | cons e rest ih =>
    obtain ⟨k₀, v₀⟩ := e
    have hk : alKeys ((k₀, v₀) :: rest) = k₀ :: alKeys rest := rfl
    rw [hk, List.mem_cons]
    by_cases h : k₀ = k
    · subst h; simp [alGet]
    · have h' : ¬ k = k₀ := fun hh => h hh.symm
      simp [alGet, h, h', ih]

theorem alKeys_contains_iff (m : PyDict β) (k : String) :
    (alKeys m).contains k ↔ (alGet m k).isSome := by
  rw [List.elem_iff]
  exact mem_alKeys_iff m k

theorem alSetdefault_fst (m : PyDict β) (k : String) (v : β) :
    (alSetdefault m k v).1 = (alGet m k).getD v := by
  rcases h : alGet m k with _ | v' <;> simp [alSetdefault, h]

theorem alGet_alSetdefault_snd (m : PyDict β) (k k' : String) (v : β) :
    alGet (alSetdefault m k v).2 k' =
      if k = k' then some ((alGet m k).getD v) else alGet m k' := by
  rcases h : alGet m k with _ | v'
  · simp only [alSetdefault, h]
    rw [alGet_append]
    by_cases hk : k = k'
    · subst hk; simp [h, alGet, Option.orElse]
    · simp only [if_neg hk, alGet, if_neg hk]
      rcases alGet m k' with _ | w <;> simp [Option.orElse]
  · simp only [alSetdefault, h]
    by_cases hk : k = k'
    · subst hk; simp [h]
    · simp [hk]

theorem mem_alKeys_alInsert (m : PyDict β) (k k' : String) (v : β) :
    k' ∈ alKeys (alInsert m k v) ↔ k' ∈ alKeys m ∨ k' = k := by
  rw [mem_alKeys_iff, mem_alKeys_iff, alGet_alInsert]
  by_cases h : k = k'
  · subst h; simp
  · have h' : ¬ k' = k := fun hh => h hh.symm
    simp [h, h']

theorem mem_alKeys_alSetdefault (m : PyDict β) (k k' : String) (v : β) :
    k' ∈ alKeys (alSetdefault m k v).2 ↔ k' ∈ alKeys m ∨ k' = k := by
  rw [mem_alKeys_iff, mem_alKeys_iff, alGet_alSetdefault_snd]
  by_cases h : k = k'
  · subst h
    rcases hg : alGet m k with _ | w <;> simp [hg]
  · have h' : ¬ k' = k := fun hh => h hh.symm
    simp [h, h']

theorem alGet_alErase_ne (m : PyDict β) (k k' : String) (h : k ≠ k') :
    alGet (alErase m k) k' = alGet m k' := by
  induction m with
  | nil => simp [alErase]
  | cons e rest ih =>
    obtain ⟨k₀, v₀⟩ := e
    by_cases h₀ : k₀ = k
    · subst h₀
      have hne : ¬ k₀ = k' := h
      simp [alErase, alGet, hne]
    · by_cases h' : k₀ = k'
      · subst h'
        simp [alErase, alGet, h₀]
      · simp [alErase, alGet, h₀, h', ih]

theorem alGet_alErase_self (m : PyDict β) (k : String)
    (h : (alKeys m).Nodup) : alGet (alErase m k) k = none := by
  induction m with
  | nil => simp [alErase, alGet]
  | cons e rest ih =>
    obtain ⟨k₀, v₀⟩ := e
    have hcons : alKeys ((k₀, v₀) :: rest) = k₀ :: alKeys rest := rfl
    rw [hcons, List.nodup_cons] at h
    obtain ⟨hk₀, hrest⟩ := h
    by_cases h₀ : k₀ = k
    · subst h₀
      simp only [alErase, if_pos rfl]
      rcases hg : alGet rest k₀ with _ | w
      · exact hg
      · exact absurd ((mem_alKeys_iff rest k₀).mpr (by rw [hg]; rfl)) hk₀
    · simp [alErase, alGet, h₀, ih hrest]

/-! ### Characterizing the software map builder -/

/-- The composite `d[k] = w` after `d.setdefault(k, v)`. -/
theorem alGet_setdefault_insert (m : PyDict β) (k k' : String) (v w : β) :
    alGet (alInsert (alSetdefault m k v).2 k w) k' =
      if k = k' then some w else alGet m k' := by
  rw [alGet_alInsert]
  by_cases h : k = k'
  · simp [h]
  · rw [if_neg h, if_neg h, alGet_alSetdefault_snd, if_neg h]

theorem recordVersion_ok {mpath name : String} {clusters : List String}
    {soft : PkgMap} {acc : List String} {e : String × FileData}
    {soft₂ : PkgMap} {acc₂ : List String}
    (h : recordVersion mpath name clusters (soft, acc) e =
      .ok (soft₂, acc₂)) :
    acc₂ = acc ++ [e.2.Version]
    ∧ (alGet soft e.2.Version = some (.clusters (oldClustersD soft e.2.Version))
        ∨ alGet soft e.2.Version = none)
    ∧ ∀ k', alGet soft₂ k' =
        if e.2.Version = k' then
          some (.clusters
            (sortStrings (oldClustersD soft e.2.Version ++ clusters)))
        else alGet soft k' := by
  obtain ⟨fn, fd⟩ := e
  simp only [recordVersion] at h
  by_cases h1 : fd.Version = fd.canonical
  · rw [if_neg (by simp [h1])] at h
    by_cases h2 : fn = name ++ "/" ++ fd.Version
    · rw [if_neg (by simp [h2])] at h
      have hfst := alSetdefault_fst soft fd.Version (PkgVal.clusters [])
      rcases hget : alGet soft fd.Version with _ | pv
      · rw [hget] at hfst
        simp only [Option.getD] at hfst
        rw [hfst] at h
        simp only [Except.ok.injEq, Prod.mk.injEq] at h
        obtain ⟨hs, ha⟩ := h
        refine ⟨ha.symm, Or.inr rfl, ?_⟩
        intro k'
        rw [← hs, alGet_setdefault_insert]
        simp [oldClustersD, hget]
      · rcases pv with cs | d
        · rw [hget] at hfst
          simp only [Option.getD] at hfst
          rw [hfst] at h
          simp only [Except.ok.injEq, Prod.mk.injEq] at h
          obtain ⟨hs, ha⟩ := h
          refine ⟨ha.symm, Or.inl (by simp [oldClustersD, hget]), ?_⟩
          intro k'
          rw [← hs, alGet_setdefault_insert]
          simp [oldClustersD, hget]
        · rw [hget] at hfst
          simp only [Option.getD] at hfst
          rw [hfst] at h
          simp at h
    · rw [if_pos (by simp [h2])] at h
      simp at h
  · rw [if_pos (by simp [h1])] at h
    simp at h

/-- Unfolding of `foldlM` over `Except` for a cons cell. -/
theorem foldlM_except_cons {σ α : Type}
    (f : σ → α → Except String σ) (s : σ) (a : α) (l : List α) :
    (a :: l).foldlM f s =
      match f s a with
      | .error e => .error e
      | .ok s' => l.foldlM f s' := by
  rcases h : f s a with e | s' <;>
    simp only [List.foldlM_cons, h] <;> rfl

theorem filesClustersFor_cons_pos {clusters : List String}
    {e : String × FileData} {rest : List (String × FileData)} {k : String}
    (h : e.2.Version = k) :
    filesClustersFor clusters (e :: rest) k =
      clusters ++ filesClustersFor clusters rest k := by
  simp [filesClustersFor, List.filter_cons, h]

theorem filesClustersFor_cons_neg {clusters : List String}
    {e : String × FileData} {rest : List (String × FileData)} {k : String}
    (h : ¬ e.2.Version = k) :
    filesClustersFor clusters (e :: rest) k =
      filesClustersFor clusters rest k := by
  simp [filesClustersFor, List.filter_cons, h]

theorem filesClustersFor_of_not_any {clusters : List String}
    {es : List (String × FileData)} {k : String}
    (h : ¬ es.any fun e => e.2.Version = k) :
    filesClustersFor clusters es k = [] := by
  have hfil : es.filter (fun e => e.2.Version = k) = [] := by
    rw [List.filter_eq_nil_iff]
    intro e he hc
    exact h (List.any_eq_true.mpr ⟨e, he, hc⟩)
  simp [filesClustersFor, hfil]

/-- Exact effect of the whole `fileT` loop on the accumulated package
map: the processed versions are appended to `mpversions` in record
order, and every key exposed by a record ends up holding the sorted
concatenation of its previous cluster list and this modulepath's
clusters, once per exposing record. -/
theorem rvFold_ok {mpath name : String} {clusters : List String} :
    ∀ (es : List (String × FileData)) (soft : PkgMap) (acc : List String)
      (soft₁ : PkgMap) (acc₁ : List String),
      es.foldlM (recordVersion mpath name clusters) (soft, acc) =
        .ok (soft₁, acc₁) →
      acc₁ = acc ++ es.map (·.2.Version)
      ∧ ∀ k', alGet soft₁ k' =
          if es.any fun e => e.2.Version = k' then
            some (.clusters (sortStrings
              (oldClustersD soft k' ++ filesClustersFor clusters es k')))
          else alGet soft k' := by
  intro es
  induction es with
  | nil =>
    intro soft acc soft₁ acc₁ h
    simp only [List.foldlM_nil, pure, Except.pure, Except.ok.injEq,
      Prod.mk.injEq] at h
    obtain ⟨hs, ha⟩ := h
    subst hs; subst ha
    simp
  | cons e rest ih =>
    intro soft acc soft₁ acc₁ h
    rw [foldlM_except_cons] at h
    rcases hstep : recordVersion mpath name clusters (soft, acc) e
      with err | st₂
    · rw [hstep] at h; simp at h
    · rw [hstep] at h
      obtain ⟨soft₂, acc₂⟩ := st₂
      obtain ⟨hacc₂, hold, hget₂⟩ := recordVersion_ok hstep
      obtain ⟨hacc₁, hget₁⟩ := ih soft₂ acc₂ soft₁ acc₁ h
      constructor
      · rw [hacc₁, hacc₂]; simp
      · intro k'
        rw [hget₁ k']
        by_cases hv : e.2.Version = k'
        · subst hv
          have holdd : oldClustersD soft₂ e.2.Version =
              sortStrings (oldClustersD soft e.2.Version ++ clusters) := by
            simp [oldClustersD, hget₂ e.2.Version]
          by_cases hr : rest.any fun e' => e'.2.Version = e.2.Version
          · rw [if_pos hr, if_pos (by simp [hr]), holdd,
              filesClustersFor_cons_pos rfl, sortStrings_append_left,
              List.append_assoc]
          · rw [if_neg hr, if_pos (by simp), hget₂ e.2.Version, if_pos rfl,
              filesClustersFor_cons_pos rfl,
              filesClustersFor_of_not_any hr]
            simp
        · have holdd : oldClustersD soft₂ k' = oldClustersD soft k' := by
            simp [oldClustersD, hget₂ k', hv]
          have hany : ((e :: rest).any fun e' => e'.2.Version = k') =
              (rest.any fun e' => e'.2.Version = k') := by
            simp [hv]
          by_cases hr : rest.any fun e' => e'.2.Version = k'
          · rw [if_pos hr, if_pos (by rw [hany]; exact hr), holdd,
              filesClustersFor_cons_neg hv]
          · rw [if_neg hr, if_neg (by rw [hany]; exact hr), hget₂ k',
              if_neg hv]

theorem defaultFromVersions_ok {mpv : List String} {v : String}
    (h : defaultFromVersions mpv = .ok v) :
    (sort_recent_versions mpv).head? = some v := by
  unfold defaultFromVersions at h
  rcases hs : sort_recent_versions mpv with _ | ⟨d, rest⟩ <;> rw [hs] at h
  · simp at h
  · simp only [pure, Except.pure, Except.ok.injEq] at h
    simp [h]

theorem computeDefault_none (mpath name : String)
    (ft : PyDict FileData) (soft : PkgMap) (mpv : List String) :
    computeDefault mpath name ⟨ft, none⟩ soft mpv =
      defaultFromVersions mpv := rfl

theorem computeDefault_some (mpath name : String)
    (ft : PyDict FileData) (soft : PkgMap) (mpv : List String)
    (value : String) :
    computeDefault mpath name ⟨ft, some value⟩ soft mpv =
      if value ≠ "" then
        if (alKeys soft).contains (stripPkg name value) then
          if stripPkg name value = "" then defaultFromVersions mpv
          else .ok (stripPkg name value)
        else
          .error ("Default value " ++ stripPkg name value ++ " found for "
            ++ name ++ " modulepath " ++ mpath ++ " but not matching entry")
      else defaultFromVersions mpv := rfl

theorem computeDefault_ok {mpath name : String} {nd : NameData}
    {soft : PkgMap} {mpv : List String} {v : String}
    (h : computeDefault mpath name nd soft mpv = .ok v)
    (hmpv : mpv = nd.fileT.map (·.2.Version)) :
    mpathDefault name nd = some v
    ∧ ∀ value, nd.defaultT = some value → value ≠ "" →
        stripPkg name value ∈ alKeys soft := by
  obtain ⟨ft, dt⟩ := nd
  simp only at hmpv
  rcases dt with _ | value
  · rw [computeDefault_none] at h
    refine ⟨?_, by intro value hv; simp at hv⟩
    simp only [mpathDefault, declaredDefault, fallbackDefault, ← hmpv]
    exact defaultFromVersions_ok h
  · rw [computeDefault_some] at h
    by_cases hv : value = ""
    · rw [if_neg (by simp [hv])] at h
      refine ⟨?_, ?_⟩
      · simp only [mpathDefault, declaredDefault, fallbackDefault,
          if_pos hv, ← hmpv]
        exact defaultFromVersions_ok h
      · intro value' hv' hne
        simp only [Option.some.injEq] at hv'
        rw [← hv'] at hne
        exact absurd hv hne
    · rw [if_pos (by simp [hv])] at h
      by_cases hc : (alKeys soft).contains (stripPkg name value)
      · rw [if_pos hc] at h
        have hmem : stripPkg name value ∈ alKeys soft := by
          rw [mem_alKeys_iff, ← alKeys_contains_iff]
          exact hc
        by_cases hd : stripPkg name value = ""
        · rw [if_pos hd] at h
          refine ⟨?_, ?_⟩
          · simp only [mpathDefault, declaredDefault, fallbackDefault,
              if_neg hv, if_pos hd, ← hmpv]
            exact defaultFromVersions_ok h
          · intro value' hv' hne
            simp only [Option.some.injEq] at hv'
            rw [← hv']
            exact hmem
        · rw [if_neg hd] at h
          simp only [Except.ok.injEq] at h
          refine ⟨?_, ?_⟩
          · have hd' : ¬ v = "" := by rw [← h]; exact hd
            simp only [mpathDefault, declaredDefault, if_neg hv, h,
              if_neg hd']
          · intro value' hv' hne
            simp only [Option.some.injEq] at hv'
            rw [← hv']
            exact hmem
      · rw [if_neg hc] at h
        simp at h

theorem foldl_setdefault_get (v : String) :
    ∀ (cls : List String) (d : PyDict String) (c : String),
      alGet (cls.foldl (fun d c => (alSetdefault d c v).2) d) c =
        ((alGet d c).orElse fun _ =>
          if cls.contains c then some v else none) := by
  intro cls
  induction cls with
  | nil =>
    intro d c
    rcases hg : alGet d c with _ | w <;> simp [hg, Option.orElse]
  | cons c₀ rest ih =>
    intro d c
    rw [List.foldl_cons, ih, alGet_alSetdefault_snd]
    by_cases h : c₀ = c
    · subst h
      rcases hg : alGet d c₀ with _ | w <;>
        simp [hg, Option.orElse, List.contains_cons]
    · have h' : (c₀ == c) = false := by simp [h]
      have h'' : ¬ c = c₀ := fun hh => h hh.symm
      rcases hg : alGet d c with _ | w <;>
        simp [h, h', h'', hg, Option.orElse, List.contains_cons]

theorem recordDefaults_ok {clusters : List String} {default : String}
    {soft soft' : PkgMap}
    (h : recordDefaults clusters default soft = .ok soft') :
    (∀ k', k' ≠ DEFAULTKEY → alGet soft' k' = alGet soft k')
    ∧ (∃ d', alGet soft' DEFAULTKEY = some (.defaults d')
        ∧ ∀ c, alGet d' c = ((pkgDefaultOf soft c).orElse fun _ =>
            if clusters.contains c then some default else none))
    ∧ (alGet soft DEFAULTKEY = none
        ∨ ∃ d₀, alGet soft DEFAULTKEY = some (.defaults d₀)) := by
  unfold recordDefaults at h
  rcases hsd : alSetdefault soft DEFAULTKEY (PkgVal.defaults [])
    with ⟨sdflt, soft₀⟩
  rw [hsd] at h
  have hfst : sdflt = (alGet soft DEFAULTKEY).getD (PkgVal.defaults []) := by
    have hh := alSetdefault_fst soft DEFAULTKEY (PkgVal.defaults [])
    rw [hsd] at hh
    exact hh
  have hsnd : ∀ k', alGet soft₀ k' =
      if DEFAULTKEY = k' then
        some ((alGet soft DEFAULTKEY).getD (PkgVal.defaults []))
      else alGet soft k' := by
    intro k'
    have hh := alGet_alSetdefault_snd soft DEFAULTKEY k' (PkgVal.defaults [])
    rw [hsd] at hh
    exact hh
  rcases hget : alGet soft DEFAULTKEY with _ | pv
  · rw [hget] at hfst hsnd
    simp only [Option.getD] at hfst hsnd
    subst hfst
    simp only [Except.ok.injEq] at h
    refine ⟨?_, ?_, Or.inl rfl⟩
    · intro k' hk'
      rw [← h, alGet_alInsert, if_neg (fun hh => hk' hh.symm), hsnd,
        if_neg (fun hh => hk' hh.symm)]
    · refine ⟨_, by rw [← h, alGet_alInsert, if_pos rfl], ?_⟩
      intro c
      rw [foldl_setdefault_get]
      simp [alGet, pkgDefaultOf, hget, Option.orElse]
  · rcases pv with cs | d
    · rw [hget] at hfst
      simp only [Option.getD] at hfst
      subst hfst
      simp at h
    · rw [hget] at hfst hsnd
      simp only [Option.getD] at hfst hsnd
      subst hfst
      simp only [Except.ok.injEq] at h
      refine ⟨?_, ?_, Or.inr ⟨d, rfl⟩⟩
      · intro k' hk'
        rw [← h, alGet_alInsert, if_neg (fun hh => hk' hh.symm), hsnd,
          if_neg (fun hh => hk' hh.symm)]
      · refine ⟨_, by rw [← h, alGet_alInsert, if_pos rfl], ?_⟩
        intro c
        rw [foldl_setdefault_get]
        simp [pkgDefaultOf, hget]

/-- Full effect of `software_map`'s per-(modulepath, package) body:
version entries get the sorted cluster concatenation, the defaults
entry gains this modulepath's clusters with first-writer-wins, the
determined default is `mpathDefault`, and a truthy explicit default
must be a key of the accumulated package map. -/
theorem processName_ok {mpath : String} {clusters : List String}
    {soft : PkgMap} {name : String} {nd : NameData} {soft' : PkgMap}
    (h : processName mpath clusters soft name nd = .ok soft') :
    (∀ k', k' ≠ DEFAULTKEY → alGet soft' k' =
        (if nd.fileT.any (fun e => e.2.Version = k') then
          some (.clusters (sortStrings
            (oldClustersD soft k' ++ entryClustersFor clusters nd k')))
        else alGet soft k'))
    ∧ (∀ c, pkgDefaultOf soft' c = ((pkgDefaultOf soft c).orElse fun _ =>
          if clusters.contains c then mpathDefault name nd else none))
    ∧ (mpathDefault name nd).isSome
    ∧ (∀ value, nd.defaultT = some value → value ≠ "" →
          stripPkg name value ∈ alKeys soft')
    ∧ (∃ d', alGet soft' DEFAULTKEY = some (.defaults d')) := by
  unfold processName at h
  rcases hfold : nd.fileT.foldlM (recordVersion mpath name clusters)
      (soft, []) with e | st₁
  · rw [hfold] at h; simp at h
  · obtain ⟨soft₁, mpv⟩ := st₁
    rw [hfold] at h
    have h2 : (match computeDefault mpath name nd soft₁ mpv with
        | .error e => (.error e : Except String PkgMap)
        | .ok default => recordDefaults clusters default soft₁) =
        .ok soft' := h
    clear h
    rcases hcd : computeDefault mpath name nd soft₁ mpv with e | default
    · rw [hcd] at h2; simp at h2
    · rw [hcd] at h2
      have h : recordDefaults clusters default soft₁ = .ok soft' := h2
      obtain ⟨hacc, hget₁⟩ := rvFold_ok nd.fileT soft [] soft₁ mpv hfold
      simp only [List.nil_append] at hacc
      obtain ⟨hmd, hstrip⟩ := computeDefault_ok hcd hacc
      obtain ⟨hrd₁, ⟨d', hd', hd'get⟩, hrd₃⟩ := recordDefaults_ok h
      have hnotany : ¬ nd.fileT.any (fun e => e.2.Version = DEFAULTKEY) := by
        intro hany
        have := hget₁ DEFAULTKEY
        rw [if_pos hany] at this
        rcases hrd₃ with h₃ | ⟨d₀, h₃⟩ <;> rw [this] at h₃ <;> simp at h₃
      have hdkey : alGet soft₁ DEFAULTKEY = alGet soft DEFAULTKEY := by
        have := hget₁ DEFAULTKEY
        rw [if_neg hnotany] at this
        exact this
      have hpd₁ : ∀ c, pkgDefaultOf soft₁ c = pkgDefaultOf soft c := by
        intro c
        unfold pkgDefaultOf
        rw [hdkey]
      refine ⟨?_, ?_, by rw [hmd]; rfl, ?_, ⟨d', hd'⟩⟩
      · intro k' hk'
        rw [hrd₁ k' hk', hget₁ k']
        rfl
      · intro c
        have : pkgDefaultOf soft' c = alGet d' c := by
          unfold pkgDefaultOf
          rw [hd']
        rw [this, hd'get c, hpd₁ c, hmd]
      · intro value hval hne
        have hmem₁ := hstrip value hval hne
        rw [mem_alKeys_iff] at hmem₁ ⊢
        by_cases hdk : stripPkg name value = DEFAULTKEY
        · rw [hdk, hd']
          rfl
        · rw [hrd₁ _ hdk]
          exact hmem₁

theorem mem_filesClustersFor {clusters : List String}
    {es : List (String × FileData)} {v c : String}
    (h : c ∈ filesClustersFor clusters es v) : c ∈ clusters := by
  simp only [filesClustersFor, List.mem_flatten, List.mem_map] at h
  obtain ⟨l, ⟨e, _, hl⟩, hc⟩ := h
  rw [← hl] at hc
  exact hc

theorem processNameStep_ok {mpath : String} {clusters : List String}
    {softmap : SoftMap} {e : String × NameData} {softmap₂ : SoftMap}
    (h : processNameStep mpath clusters softmap e = .ok softmap₂) :
    ∃ soft',
      processName mpath clusters ((alGet softmap e.1).getD []) e.1 e.2 =
        .ok soft'
      ∧ ∀ n, alGet softmap₂ n =
          if e.1 = n then some soft' else alGet softmap n := by
  unfold processNameStep at h
  rcases hsd : alSetdefault softmap e.1 ([] : PkgMap) with ⟨soft, sm₀⟩
  rw [hsd] at h
  have hfst : soft = (alGet softmap e.1).getD [] := by
    have hh := alSetdefault_fst softmap e.1 ([] : PkgMap)
    rw [hsd] at hh
    exact hh
  have hsnd : ∀ n, alGet sm₀ n =
      if e.1 = n then some ((alGet softmap e.1).getD []) else alGet softmap n
      := by
    intro n
    have hh := alGet_alSetdefault_snd softmap e.1 n ([] : PkgMap)
    rw [hsd] at hh
    exact hh
  subst hfst
  have h2 : (match processName mpath clusters ((alGet softmap e.1).getD [])
        e.1 e.2 with
      | .error err => (.error err : Except String SoftMap)
      | .ok soft => .ok (alInsert sm₀ e.1 soft)) = .ok softmap₂ := h
  clear h
  rcases hpn : processName mpath clusters ((alGet softmap e.1).getD [])
      e.1 e.2 with err | soft'
  · rw [hpn] at h2; simp at h2
  · rw [hpn] at h2
    simp only [Except.ok.injEq] at h2
    refine ⟨soft', rfl, ?_⟩
    intro n
    rw [← h2, alGet_alInsert]
    by_cases hn : e.1 = n
    · simp [hn]
    · rw [if_neg hn, if_neg hn, hsnd, if_neg hn]

theorem processMpath_ok {spiderT : SpiderT} {mpmap : PyDict (List String)}
    {softmap : SoftMap} {mpath : String} {softmap' : SoftMap}
    (h : processMpath spiderT mpmap softmap mpath = .ok softmap') :
    ∃ clusters nds, alGet mpmap mpath = some clusters
      ∧ alGet spiderT mpath = some nds
      ∧ nds.foldlM (processNameStep mpath clusters) softmap =
          .ok softmap' := by
  unfold processMpath at h
  rcases hcl : alGet mpmap mpath with _ | clusters <;> rw [hcl] at h
  · simp at h
  · rcases hnd : alGet spiderT mpath with _ | nds <;> rw [hnd] at h
    · simp at h
    · exact ⟨clusters, nds, rfl, rfl, h⟩

theorem alGet_cons (k₀ : String) (v₀ : β) (rest : PyDict β) (k : String) :
    alGet ((k₀, v₀) :: rest) k = if k₀ = k then some v₀ else alGet rest k :=
  rfl

theorem recordedDefault_eq (m : SoftMap) (n c : String) :
    recordedDefault m n c =
      match alGet m n with
      | some soft => pkgDefaultOf soft c
      | none => none := rfl

theorem pkgDefaultOf_getD (softmap : SoftMap) (m c : String) :
    pkgDefaultOf ((alGet softmap m).getD []) c = recordedDefault softmap m c
    := by
  rw [recordedDefault_eq]
  rcases alGet softmap m with _ | s
  · rfl
  · rfl

/-- Defaults after the per-modulepath package loop: first-writer-wins
inside the accumulated softmap, then the first record of the package in
this modulepath's table for clusters it serves. -/
theorem nameFold_defaults {mpath : String} {clusters : List String} :
    ∀ (nds : List (String × NameData)) (softmap softmap' : SoftMap),
      nds.foldlM (processNameStep mpath clusters) softmap = .ok softmap' →
      ∀ n c, recordedDefault softmap' n c =
        ((recordedDefault softmap n c).orElse fun _ =>
          match alGet nds n with
          | some nd => if clusters.contains c then mpathDefault n nd
              else none
          | none => none) := by
  intro nds
  induction nds with
  | nil =>
    intro softmap softmap' h n c
    simp only [List.foldlM_nil, pure, Except.pure, Except.ok.injEq] at h
    subst h
    rcases recordedDefault softmap n c with _ | b <;>
      simp [alGet, Option.orElse]
  | cons e rest ih =>
    obtain ⟨n₀, nd₀⟩ := e
    intro softmap softmap' h n c
    rw [foldlM_except_cons] at h
    rcases hstep : processNameStep mpath clusters softmap (n₀, nd₀)
      with err | sm₂ <;> rw [hstep] at h
    · simp at h
    · obtain ⟨soft', hpn, hsm₂⟩ := processNameStep_ok hstep
      obtain ⟨_, hpd, hisSome, _, _⟩ := processName_ok hpn
      rw [ih sm₂ softmap' h n c]
      have hrd₂ : recordedDefault sm₂ n c =
          if n₀ = n then pkgDefaultOf soft' c
          else recordedDefault softmap n c := by
        rw [recordedDefault_eq, hsm₂ n]
        by_cases hn : n₀ = n
        · simp [hn]
        · rw [if_neg hn, if_neg hn, recordedDefault_eq]
      rw [hrd₂, alGet_cons]
      by_cases hn : n₀ = n
      · subst hn
        rw [if_pos rfl, if_pos rfl, hpd c, pkgDefaultOf_getD]
        rcases hb : recordedDefault softmap n₀ c with _ | b
      -- the accumulated default is still unset
        · simp only [Option.orElse]
          by_cases hcl : clusters.contains c
          · rw [if_pos hcl]
            obtain ⟨dv, hdv⟩ := Option.isSome_iff_exists.mp hisSome
            rw [hdv]
          · rw [if_neg hcl]
            simp only [Option.orElse]
            rcases alGet rest n₀ with _ | nd₂
            · rfl
            · show (if clusters.contains c = true then mpathDefault n₀ nd₂
                else none) = none
              rw [if_neg hcl]
        · simp [Option.orElse]
      · rw [if_neg hn, if_neg hn]

theorem alGet_some_mem {m : PyDict β} {k : String} {v : β}
    (h : alGet m k = some v) : (k, v) ∈ m := by
  induction m with
  | nil => simp [alGet] at h
  | cons e rest ih =>
    obtain ⟨k₀, v₀⟩ := e
    rw [alGet_cons] at h
    by_cases h₀ : k₀ = k
    · rw [if_pos h₀] at h
      injection h with h
      subst h₀; subst h
      exact List.mem_cons_self _ _
    · rw [if_neg h₀] at h
      exact List.mem_cons_of_mem _ (ih h)

theorem nameFold_isSome {mpath : String} {clusters : List String} :
    ∀ (nds : List (String × NameData)) (softmap softmap' : SoftMap),
      nds.foldlM (processNameStep mpath clusters) softmap = .ok softmap' →
      ∀ e ∈ nds, (mpathDefault e.1 e.2).isSome := by
  intro nds
  induction nds with
  | nil => intro _ _ _ e he; simp at he
  | cons e₀ rest ih =>
    intro softmap softmap' h e he
    rw [foldlM_except_cons] at h
    rcases hstep : processNameStep mpath clusters softmap e₀
      with err | sm₂ <;> rw [hstep] at h
    · simp at h
    · rcases List.mem_cons.mp he with he | he
      · subst he
        obtain ⟨soft', hpn, _⟩ := processNameStep_ok hstep
        obtain ⟨_, _, hisSome, _, _⟩ := processName_ok hpn
        exact hisSome
      · exact ih sm₂ softmap' h e he

/-- Defaults after a whole sequence of modulepaths: the value recorded
for a (package, cluster) pair comes from the first sequenced modulepath
that serves the pair, via `mpathDefault` of the package's record
there. -/
theorem mpathFold_defaults {spiderT : SpiderT}
    {mpmap : PyDict (List String)} :
    ∀ (seq : List String) (softmap softmap' : SoftMap),
      seq.foldlM (processMpath spiderT mpmap) softmap = .ok softmap' →
      ∀ n c, recordedDefault softmap' n c =
        ((recordedDefault softmap n c).orElse fun _ =>
          (seq.find? (servesPkgCluster spiderT mpmap n c)).bind fun mp =>
            (alGet spiderT mp).bind fun nds =>
              (alGet nds n).bind fun nd => mpathDefault n nd) := by
  intro seq
  induction seq with
  | nil =>
    intro softmap softmap' h n c
    simp only [List.foldlM_nil, pure, Except.pure, Except.ok.injEq] at h
    subst h
    rcases recordedDefault softmap n c with _ | b <;>
      simp [Option.orElse]
  | cons mp rest ih =>
    intro softmap softmap' h n c
    rw [foldlM_except_cons] at h
    rcases hstep : processMpath spiderT mpmap softmap mp
      with err | sm₂ <;> rw [hstep] at h
    · simp at h
    · obtain ⟨clusters, nds, hcl, hnds, hfold⟩ := processMpath_ok hstep
      rw [ih sm₂ softmap' h n c,
        nameFold_defaults nds softmap sm₂ hfold n c]
      by_cases hserves : servesPkgCluster spiderT mpmap n c mp
      · rw [List.find?_cons_of_pos _ hserves]
        have hsv := hserves
        unfold servesPkgCluster at hsv
        rw [hnds, hcl] at hsv
        simp only [Bool.and_eq_true] at hsv
        obtain ⟨hn, hc⟩ := hsv
        rw [alKeys_contains_iff] at hn
        obtain ⟨nd, hnd⟩ := Option.isSome_iff_exists.mp hn
        have hdv : (mpathDefault n nd).isSome :=
          nameFold_isSome nds softmap sm₂ hfold (n, nd) (alGet_some_mem hnd)
        obtain ⟨dv, hdv'⟩ := Option.isSome_iff_exists.mp hdv
        rcases hb : recordedDefault softmap n c with _ | b
        · simp only [Option.orElse, Option.some_bind, hnds, hnd, if_pos hc,
            hdv']
        · simp only [Option.orElse]
      · rw [List.find?_cons_of_neg _ hserves]
        have hG : (match alGet nds n with
            | some nd => if clusters.contains c then mpathDefault n nd
                else none
            | none => none) = none := by
          unfold servesPkgCluster at hserves
          rw [hnds, hcl] at hserves
          simp only [Bool.and_eq_true, not_and] at hserves
          rcases hnd : alGet nds n with _ | nd
          · rfl
          · have hn : (alKeys nds).contains n := by
              rw [alKeys_contains_iff, hnd]; rfl
            have hc := hserves hn
            simp only [hc]
            rw [if_neg (by simp [hc])]
        rw [hG]
        rcases hb : recordedDefault softmap n c with _ | b <;>
          simp [Option.orElse]

/-- C3 (counterexample): `software_map` over `ex3spider` succeeds even
though the explicit default `1` declared at modulepath `/p2` (already
equal to its stripped form) is not among the versions recorded for
`foo` at `/p2`, which are just `["2"]`: the claimed per-modulepath
membership requirement, and the abort it predicts, do not hold. -/
theorem c3_counterexample :
    software_map ex3spider ex3mpmap [] =
      .ok [("foo", [("1", PkgVal.clusters ["c1"]),
        (".default", PkgVal.defaults [("c1", "1")]),
        ("2", PkgVal.clusters ["c1"])])]
    ∧ stripPkg "foo" "1" = "1"
    ∧ "1" ∉ mpVersions ex3spider "/p2" "foo" :=
  ⟨rfl, rfl, by decide⟩

/-- C3 (amended): a truthy explicit default declaration, after the
`package/` prefix strip, must be a key of the package's accumulated map
— the versions recorded at this or any earlier-sequenced modulepath,
or the reserved defaults key — rather than only this modulepath's own
versions: when the record processes successfully the stripped value is
such a key, and when it is not among the accumulated keys the builder
aborts with an error naming the value, package and modulepath. -/
theorem c3_theorem {mpath name value : String} {clusters : List String}
    {soft soft' : PkgMap} {nd : NameData}
    (hval : nd.defaultT = some value) (hne : value ≠ "") :
    (processName mpath clusters soft name nd = .ok soft' →
      stripPkg name value ∈ alKeys soft')
    ∧ ∀ (soft₁ : PkgMap) (mpv : List String),
        ¬ (alKeys soft₁).contains (stripPkg name value) →
        computeDefault mpath name nd soft₁ mpv =
          .error ("Default value " ++ stripPkg name value ++ " found for "
            ++ name ++ " modulepath " ++ mpath ++ " but not matching entry")
    := by
  constructor
  · intro h
    exact (processName_ok h).2.2.2.1 value hval hne
  · intro soft₁ mpv hc
    obtain ⟨ft, dt⟩ := nd
    simp only at hval
    subst hval
    rw [computeDefault_some, if_pos (by simp [hne]), if_neg hc]

/-- C3 (witness): processing `foo` at `/p2` with explicit default `1`
succeeds because `1` is an accumulated key (recorded at `/p1`), and
with an accumulation lacking `1` the determination aborts. -/
theorem c3_witness :
    stripPkg "foo" "1" ∈
      alKeys [("1", PkgVal.clusters ["c1"]),
        (".default", PkgVal.defaults [("c1", "1")]),
        ("2", PkgVal.clusters ["c1"])] :=
  by
  let mp := "/p2"
  have h := @c3_theorem mp "foo" "1" ["c1"]
    [("1", PkgVal.clusters ["c1"]),
      (".default", PkgVal.defaults [("c1", "1")])]
    [("1", PkgVal.clusters ["c1"]),
      (".default", PkgVal.defaults [("c1", "1")]),
      ("2", PkgVal.clusters ["c1"])]
    ⟨[("foo/2", ⟨"2", "2"⟩)], some "1"⟩ rfl (by decide)
  exact h.1 rfl

/-- C4: in a successfully built SoftwareMap the default recorded for a
(package, cluster) pair is `mpathDefault` — the value `software_map`
determines — of the package's record at the first modulepath of the
§4.3 sequence that serves the pair; later modulepaths (with possibly
differing defaults) leave it unchanged, and no error results. -/
theorem c4_theorem {spiderT : SpiderT} {mpmap : PyDict (List String)}
    {clusterData : List (List String)} {m : SoftMap}
    (h : software_map spiderT mpmap clusterData = .ok m) (n c : String) :
    recordedDefault m n c =
      ((sort_modulepaths (alKeys spiderT) (alKeys mpmap)
          clusterData).find? (servesPkgCluster spiderT mpmap n c)).bind
        fun mp => (alGet spiderT mp).bind fun nds =>
          (alGet nds n).bind fun nd => mpathDefault n nd := by
  unfold software_map at h
  rw [mpathFold_defaults _ [] m h n c]
  rfl

/-- C4 (witness): in the `ex6spider` run both modulepaths serve
(foo, c1); the first (`/p1`) determines default `2`, the second would
determine `1`, the run succeeds and records `2`. -/
theorem c4_witness :
    recordedDefault
      [("foo", [("1", PkgVal.clusters ["c1", "c1"]),
        ("2", PkgVal.clusters ["c1"]),
        (".default", PkgVal.defaults [("c1", "2")])])] "foo" "c1" =
      ((sort_modulepaths (alKeys ex6spider) (alKeys ex3mpmap) []).find?
          (servesPkgCluster ex6spider ex3mpmap "foo" "c1")).bind
        fun mp => (alGet ex6spider mp).bind fun nds =>
          (alGet nds "foo").bind fun nd => mpathDefault "foo" nd :=
  c4_theorem (by rfl) "foo" "c1"

/-- C7: when a package's record at a modulepath has an absent or empty
default declaration, a successful processing of that modulepath records
as default, for every cluster it serves that is not already decided,
the most recent of the package's own versions at that modulepath —
the head of the comparator-descending sort, which is `verGe` every
version in the set. -/
theorem c7_theorem {spiderT : SpiderT} {mpmap : PyDict (List String)}
    {softmap softmap' : SoftMap} {mpath n c : String}
    {nds : PyDict NameData} {nd : NameData} {clusters : List String}
    (h : processMpath spiderT mpmap softmap mpath = .ok softmap')
    (hnds : alGet spiderT mpath = some nds)
    (hnd : alGet nds n = some nd)
    (hdecl : nd.defaultT = none ∨ nd.defaultT = some "")
    (hcl : alGet mpmap mpath = some clusters)
    (hc : clusters.contains c)
    (hnot : recordedDefault softmap n c = none) :
    ∃ d, recordedDefault softmap' n c = some d
      ∧ (sort_recent_versions (mpVersions spiderT mpath n)).head? = some d
      ∧ ∀ v ∈ mpVersions spiderT mpath n, verGe d v := by
  obtain ⟨clusters', nds', hcl', hnds', hfold⟩ := processMpath_ok h
  rw [hcl] at hcl'
  injection hcl' with hcl'
  rw [hnds] at hnds'
  injection hnds' with hnds'
  subst hcl'
  subst hnds'
  have hrd := nameFold_defaults nds softmap softmap' hfold n c
  rw [hnot] at hrd
  simp only [Option.orElse, hnd, if_pos hc] at hrd
  have hmv : mpVersions spiderT mpath n = nd.fileT.map (·.2.Version) := by
    simp only [mpVersions, hnds, hnd]
  have hmd : mpathDefault n nd = fallbackDefault nd := by
    unfold mpathDefault declaredDefault
    rcases hdecl with hd | hd <;> rw [hd]
    simp
  have hisSome : (mpathDefault n nd).isSome :=
    nameFold_isSome nds softmap softmap' hfold (n, nd) (alGet_some_mem hnd)
  obtain ⟨d, hd⟩ := Option.isSome_iff_exists.mp hisSome
  refine ⟨d, ?_, ?_, ?_⟩
  · rw [hrd, hd]
  · rw [hmv]
    rw [hmd] at hd
    exact hd
  · rw [hmd] at hd
    unfold fallbackDefault at hd
    rcases hs : sort_recent_versions (nd.fileT.map (·.2.Version))
      with _ | ⟨d₀, rest⟩ <;> rw [hs] at hd
    · simp at hd
    · simp only [List.head?, Option.some.injEq] at hd
      subst hd
      intro v hv
      rw [hmv] at hv
      exact sort_recent_versions_head_ge hs v hv

/-- C7 (witness): the spec's GCCcore scenario — one modulepath, two
versions, no explicit default — records `20180311-GCCcore-8.3.0` for
cluster `c1`. -/
theorem c7_witness :
    ∃ d, recordedDefault
        [("pkg", [("20180311-GCCcore-8.2.0", PkgVal.clusters ["c1", "c2"]),
          ("20180311-GCCcore-8.3.0", PkgVal.clusters ["c1", "c2"]),
          (".default", PkgVal.defaults
            [("c1", "20180311-GCCcore-8.3.0"),
             ("c2", "20180311-GCCcore-8.3.0")])])] "pkg" "c1" = some d
      ∧ (sort_recent_versions (mpVersions ex7spider "/p1" "pkg")).head? =
          some d
      ∧ ∀ v ∈ mpVersions ex7spider "/p1" "pkg", verGe d v :=
  @c7_theorem ex7spider ex7mpmap []
    [("pkg", [("20180311-GCCcore-8.2.0", PkgVal.clusters ["c1", "c2"]),
      ("20180311-GCCcore-8.3.0", PkgVal.clusters ["c1", "c2"]),
      (".default", PkgVal.defaults
        [("c1", "20180311-GCCcore-8.3.0"),
         ("c2", "20180311-GCCcore-8.3.0")])])]
    "/p1" "pkg" "c1"
    [("pkg", ⟨[("pkg/20180311-GCCcore-8.2.0",
        ⟨"20180311-GCCcore-8.2.0", "20180311-GCCcore-8.2.0"⟩),
      ("pkg/20180311-GCCcore-8.3.0",
        ⟨"20180311-GCCcore-8.3.0", "20180311-GCCcore-8.3.0"⟩)], none⟩)]
    ⟨[("pkg/20180311-GCCcore-8.2.0",
        ⟨"20180311-GCCcore-8.2.0", "20180311-GCCcore-8.2.0"⟩),
      ("pkg/20180311-GCCcore-8.3.0",
        ⟨"20180311-GCCcore-8.3.0", "20180311-GCCcore-8.3.0"⟩)], none⟩
    ["c1", "c2"]
    (by rfl) rfl rfl (Or.inl rfl) rfl (by decide) rfl

theorem alGet_none_of_not_mem {m : PyDict β} {k : String}
    (h : k ∉ alKeys m) : alGet m k = none := by
  rcases hg : alGet m k with _ | v
  · rfl
  · exact absurd ((mem_alKeys_iff m k).mpr (by rw [hg]; rfl)) h

theorem alGet_getD_nil (m : SoftMap) (n v : String) :
    alGet ((alGet m n).getD []) v = smVal m n v := by
  unfold smVal
  rcases alGet m n with _ | soft
  · rfl
  · rfl

theorem oldClustersD_getD (m : SoftMap) (n v : String) :
    oldClustersD ((alGet m n).getD []) v = smClustersD m n v := by
  unfold oldClustersD smClustersD
  rw [alGet_getD_nil]

/-- Version entries after the per-modulepath package loop, for a table
with distinct package names. -/
theorem nameFold_versions {mpath : String} {clusters : List String} :
    ∀ (nds : List (String × NameData)), (alKeys nds).Nodup →
      ∀ (softmap softmap' : SoftMap),
      nds.foldlM (processNameStep mpath clusters) softmap = .ok softmap' →
      ∀ n v, v ≠ DEFAULTKEY →
        smVal softmap' n v =
          match alGet nds n with
          | some nd =>
            if nd.fileT.any (fun e => e.2.Version = v) then
              some (.clusters (sortStrings
                (smClustersD softmap n v ++ entryClustersFor clusters nd v)))
            else smVal softmap n v
          | none => smVal softmap n v := by
  intro nds
  induction nds with
  | nil =>
    intro _ softmap softmap' h n v _
    simp only [List.foldlM_nil, pure, Except.pure, Except.ok.injEq] at h
    subst h
    rfl
  | cons e rest ih =>
    obtain ⟨n₀, nd₀⟩ := e
    intro hnodup softmap softmap' h n v hv
    have hcons : alKeys ((n₀, nd₀) :: rest) = n₀ :: alKeys rest := rfl
    rw [hcons, List.nodup_cons] at hnodup
    obtain ⟨hn₀, hrest⟩ := hnodup
    rw [foldlM_except_cons] at h
    rcases hstep : processNameStep mpath clusters softmap (n₀, nd₀)
      with err | sm₂ <;> rw [hstep] at h
    · simp at h
    · obtain ⟨soft', hpn, hsm₂⟩ := processNameStep_ok hstep
      obtain ⟨hver, _, _, _, _⟩ := processName_ok hpn
      have hstepval : ∀ v', v' ≠ DEFAULTKEY → smVal sm₂ n₀ v' =
          if nd₀.fileT.any (fun e => e.2.Version = v') then
            some (.clusters (sortStrings
              (smClustersD softmap n₀ v' ++ entryClustersFor clusters nd₀ v')))
          else smVal softmap n₀ v' := by
        intro v' hv'
        have : smVal sm₂ n₀ v' = alGet soft' v' := by
          unfold smVal
          rw [hsm₂ n₀, if_pos rfl]
          rfl
        rw [this, hver v' hv', oldClustersD_getD, alGet_getD_nil]
      have hstepother : ∀ n', n₀ ≠ n' → smVal sm₂ n' v = smVal softmap n' v
          := by
        intro n' hn'
        unfold smVal
        rw [hsm₂ n', if_neg hn']
      rw [ih hrest sm₂ softmap' h n v hv, alGet_cons]
      by_cases hn : n₀ = n
      · subst hn
        rw [if_pos rfl, alGet_none_of_not_mem
          (by rw [mem_alKeys_iff]
              rcases hg : alGet rest n₀ with _ | x
              · simp
              · exact absurd ((mem_alKeys_iff rest n₀).mpr
                  (by rw [hg]; rfl)) hn₀)]
        exact hstepval v hv
      · rw [if_neg hn]
        have hsc : smClustersD sm₂ n v = smClustersD softmap n v := by
          unfold smClustersD
          rw [hstepother n hn]
        rw [hsc, hstepother n hn]

theorem exposesVersion_eq_some {spiderT : SpiderT} {mp n : String}
    {nds : PyDict NameData} {nd : NameData} (v : String)
    (hnds : alGet spiderT mp = some nds) (hnd : alGet nds n = some nd) :
    exposesVersion spiderT mp n v =
      nd.fileT.any (fun e => e.2.Version = v) := by
  simp [exposesVersion, hnds, hnd]

theorem exposesVersion_eq_none {spiderT : SpiderT} {mp n : String}
    {nds : PyDict NameData} (v : String)
    (hnds : alGet spiderT mp = some nds) (hnd : alGet nds n = none) :
    exposesVersion spiderT mp n v = false := by
  simp [exposesVersion, hnds, hnd]

theorem exposuresClusters_cons_some {spiderT : SpiderT}
    {mpmap : PyDict (List String)} {mp n : String} {nds : PyDict NameData}
    {cs : List String} {nd : NameData} (rest : List String) (v : String)
    (hnds : alGet spiderT mp = some nds) (hcl : alGet mpmap mp = some cs)
    (hnd : alGet nds n = some nd) :
    exposuresClusters spiderT mpmap (mp :: rest) n v =
      entryClustersFor cs nd v ++ exposuresClusters spiderT mpmap rest n v
    := by
  simp [exposuresClusters, hnds, hcl, hnd]

theorem exposuresClusters_cons_none {spiderT : SpiderT}
    {mpmap : PyDict (List String)} {mp n : String} {nds : PyDict NameData}
    {cs : List String} (rest : List String) (v : String)
    (hnds : alGet spiderT mp = some nds) (hcl : alGet mpmap mp = some cs)
    (hnd : alGet nds n = none) :
    exposuresClusters spiderT mpmap (mp :: rest) n v =
      exposuresClusters spiderT mpmap rest n v := by
  simp [exposuresClusters, hnds, hcl, hnd]

theorem exposuresClusters_nil_of_not_any {spiderT : SpiderT}
    {mpmap : PyDict (List String)} {n v : String} :
    ∀ {seq : List String},
      ¬ seq.any (fun mp => exposesVersion spiderT mp n v) →
      exposuresClusters spiderT mpmap seq n v = [] := by
  intro seq
  induction seq with
  | nil => intro _; rfl
  | cons mp rest ih =>
    intro h
    simp only [List.any_cons, Bool.or_eq_true, not_or] at h
    obtain ⟨hmp, hrest⟩ := h
    rcases hnds : alGet spiderT mp with _ | nds
    · rw [show exposuresClusters spiderT mpmap (mp :: rest) n v =
          exposuresClusters spiderT mpmap rest n v by
        simp [exposuresClusters, hnds]]
      exact ih hrest
    · rcases hcl : alGet mpmap mp with _ | cs
      · rw [show exposuresClusters spiderT mpmap (mp :: rest) n v =
            exposuresClusters spiderT mpmap rest n v by
          simp [exposuresClusters, hnds, hcl]]
        exact ih hrest
      · rcases hnd : alGet nds n with _ | nd
        · rw [exposuresClusters_cons_none rest v hnds hcl hnd]
          exact ih hrest
        · rw [exposuresClusters_cons_some rest v hnds hcl hnd, ih hrest,
            List.append_nil]
          rw [exposesVersion_eq_some v hnds hnd] at hmp
          exact filesClustersFor_of_not_any hmp

/-- Version entries across a whole modulepath sequence: the sorted
concatenation of the cluster contributions of every exposing
modulepath. -/
theorem mpathFold_versions {spiderT : SpiderT}
    {mpmap : PyDict (List String)}
    (hWF : ∀ e ∈ spiderT, (alKeys e.2).Nodup) :
    ∀ (seq : List String) (softmap softmap' : SoftMap),
      seq.foldlM (processMpath spiderT mpmap) softmap = .ok softmap' →
      ∀ n v, v ≠ DEFAULTKEY →
        smVal softmap' n v =
          if seq.any (fun mp => exposesVersion spiderT mp n v) then
            some (.clusters (sortStrings (smClustersD softmap n v ++
              exposuresClusters spiderT mpmap seq n v)))
          else smVal softmap n v := by
  intro seq
  induction seq with
  | nil =>
    intro softmap softmap' h n v _
    simp only [List.foldlM_nil, pure, Except.pure, Except.ok.injEq] at h
    subst h
    simp
  | cons mp rest ih =>
    intro softmap softmap' h n v hv
    rw [foldlM_except_cons] at h
    rcases hstep : processMpath spiderT mpmap softmap mp
      with err | sm₂ <;> rw [hstep] at h
    · simp at h
    · obtain ⟨clusters, nds, hcl, hnds, hfold⟩ := processMpath_ok hstep
      have hnodup : (alKeys nds).Nodup := hWF (mp, nds) (alGet_some_mem hnds)
      have hstepval := nameFold_versions nds hnodup softmap sm₂ hfold n v hv
      rw [ih sm₂ softmap' h n v hv]
      rcases hnd : alGet nds n with _ | nd
      · -- the package does not occur at this modulepath
        rw [hnd] at hstepval
        have hsv : smVal sm₂ n v = smVal softmap n v := hstepval
        clear hstepval
        have hexp := exposesVersion_eq_none (n := n) v hnds hnd
        have hsc : smClustersD sm₂ n v = smClustersD softmap n v := by
          unfold smClustersD
          rw [hsv]
        rw [exposuresClusters_cons_none rest v hnds hcl hnd, hsv, hsc,
          List.any_cons, hexp, Bool.false_or]
      · rw [hnd] at hstepval
        have hsv : smVal sm₂ n v =
            (if nd.fileT.any (fun e => e.2.Version = v) then
              some (PkgVal.clusters (sortStrings (smClustersD softmap n v ++
                entryClustersFor clusters nd v)))
            else smVal softmap n v) := hstepval
        clear hstepval
        have hexp := exposesVersion_eq_some (n := n) v hnds hnd
        by_cases hany : nd.fileT.any (fun e => e.2.Version = v)
        · rw [if_pos hany] at hsv
          have hval₂ : smClustersD sm₂ n v = sortStrings
              (smClustersD softmap n v ++ entryClustersFor clusters nd v)
              := by
            unfold smClustersD
            rw [hsv]
            rfl
          rw [exposuresClusters_cons_some rest v hnds hcl hnd,
            List.any_cons, hexp, hany, Bool.true_or, if_pos rfl]
          by_cases hrest : rest.any (fun mp => exposesVersion spiderT mp n v)
          · rw [if_pos hrest, hval₂, sortStrings_append_left,
              List.append_assoc]
          · rw [if_neg hrest, hsv,
              exposuresClusters_nil_of_not_any hrest, List.append_nil]
        · rw [if_neg hany] at hsv
          have hsc : smClustersD sm₂ n v = smClustersD softmap n v := by
            unfold smClustersD
            rw [hsv]
          have hent : entryClustersFor clusters nd v = [] :=
            filesClustersFor_of_not_any hany
          have hany' : (nd.fileT.any fun e => e.2.Version = v) = false :=
            Bool.eq_false_iff.mpr hany
          rw [exposuresClusters_cons_some rest v hnds hcl hnd, hent,
            List.nil_append, List.any_cons, hexp, hany', Bool.false_or,
            hsv, hsc]

/-- C5 (counterexample): two sequenced modulepaths serving the same
cluster `c1` both expose `foo/1`; the run succeeds and stores
`["c1", "c1"]` under version `1` — a sorted concatenation with a
duplicate, not a duplicate-free union. -/
theorem c5_counterexample :
    software_map ex5spider ex3mpmap [] =
      .ok [("foo", [("1", PkgVal.clusters ["c1", "c1"]),
        (".default", PkgVal.defaults [("c1", "1")])])]
    ∧ versionClusters [("foo", [("1", PkgVal.clusters ["c1", "c1"]),
        (".default", PkgVal.defaults [("c1", "1")])])] "foo" "1" =
        some ["c1", "c1"]
    ∧ ¬ (["c1", "c1"] : List String).Nodup :=
  ⟨rfl, rfl, by decide⟩

/-- C5 (amended): in a successfully built SoftwareMap, for a table with
distinct package names per modulepath, the value stored under a version
is the sorted concatenation — duplicates retained — of the cluster
lists of every sequenced modulepath exposure of that package version,
and the entry exists exactly when some sequenced modulepath exposes
it. -/
theorem c5_theorem {spiderT : SpiderT} {mpmap : PyDict (List String)}
    {clusterData : List (List String)} {m : SoftMap}
    (hWF : ∀ e ∈ spiderT, (alKeys e.2).Nodup)
    (h : software_map spiderT mpmap clusterData = .ok m)
    (n v : String) (hv : v ≠ DEFAULTKEY) :
    versionClusters m n v =
      if (sort_modulepaths (alKeys spiderT) (alKeys mpmap)
          clusterData).any (fun mp => exposesVersion spiderT mp n v) then
        some (sortStrings (exposuresClusters spiderT mpmap
          (sort_modulepaths (alKeys spiderT) (alKeys mpmap) clusterData)
          n v))
      else none := by
  unfold software_map at h
  have hval := mpathFold_versions hWF _ [] m h n v hv
  have hvc : versionClusters m n v =
      (match smVal m n v with
       | some (.clusters cs) => some cs
       | _ => none) := by
    unfold versionClusters smVal
    rcases alGet m n with _ | soft
    · rfl
    · rcases alGet soft v with _ | pv
      · rfl
      · rcases pv with cs | d <;> rfl
  rw [hvc, hval]
  by_cases hany : (sort_modulepaths (alKeys spiderT) (alKeys mpmap)
      clusterData).any (fun mp => exposesVersion spiderT mp n v)
  · rw [if_pos hany, if_pos hany]
    have h0 : smClustersD ([] : SoftMap) n v = [] := rfl
    rw [h0, List.nil_append]
  · rw [if_neg hany, if_neg hany]
    rfl

/-- C5 (witness): the amended characterization instantiated on the
duplicate-producing run. -/
theorem c5_witness :
    versionClusters [("foo", [("1", PkgVal.clusters ["c1", "c1"]),
        (".default", PkgVal.defaults [("c1", "1")])])] "foo" "1" =
      if (sort_modulepaths (alKeys ex5spider) (alKeys ex3mpmap) []).any
          (fun mp => exposesVersion ex5spider mp "foo" "1") then
        some (sortStrings (exposuresClusters ex5spider ex3mpmap
          (sort_modulepaths (alKeys ex5spider) (alKeys ex3mpmap) [])
          "foo" "1"))
      else none :=
  c5_theorem (by decide) (by rfl) "foo" "1" (by decide)

theorem mem_defaultsKeys_iff (soft : PkgMap) (c : String) :
    c ∈ defaultsKeys soft ↔ (pkgDefaultOf soft c).isSome := by
  unfold defaultsKeys pkgDefaultOf
  rcases alGet soft DEFAULTKEY with _ | pv
  · simp
  · rcases pv with cs | d
    · simp
    · exact mem_alKeys_iff d c

/-- The per-package consistency invariant: every cluster listed under a
version key has a recorded default. -/
theorem nameFold_inv {mpath : String} {clusters : List String} :
    ∀ (nds : List (String × NameData)) (softmap softmap' : SoftMap),
      nds.foldlM (processNameStep mpath clusters) softmap = .ok softmap' →
      (∀ n soft, alGet softmap n = some soft →
        ∀ v cs, alGet soft v = some (.clusters cs) →
          ∀ c ∈ cs, (pkgDefaultOf soft c).isSome) →
      ∀ n soft, alGet softmap' n = some soft →
        ∀ v cs, alGet soft v = some (.clusters cs) →
          ∀ c ∈ cs, (pkgDefaultOf soft c).isSome := by
  intro nds
  induction nds with
  | nil =>
    intro softmap softmap' h hinv
    simp only [List.foldlM_nil, pure, Except.pure, Except.ok.injEq] at h
    subst h
    exact hinv
  | cons e rest ih =>
    intro softmap softmap' h hinv
    rw [foldlM_except_cons] at h
    rcases hstep : processNameStep mpath clusters softmap e
      with err | sm₂ <;> rw [hstep] at h
    · simp at h
    · obtain ⟨soft', hpn, hsm₂⟩ := processNameStep_ok hstep
      obtain ⟨hver, hpd, hisSome, _, hdko⟩ := processName_ok hpn
      refine ih sm₂ softmap' h ?_
      intro n soft hget v cs hvc c hc
      rw [hsm₂ n] at hget
      by_cases hn : e.1 = n
      · rw [if_pos hn] at hget
        injection hget with hget
        subst hget
        by_cases hvd : v = DEFAULTKEY
        · obtain ⟨d', hd'⟩ := hdko
          rw [hvd, hd'] at hvc
          simp at hvc
        · rw [hver v hvd] at hvc
          have hinv₀ : ∀ v' cs', alGet ((alGet softmap e.1).getD []) v' =
              some (.clusters cs') → ∀ c' ∈ cs',
                (pkgDefaultOf ((alGet softmap e.1).getD []) c').isSome := by
            rcases hg : alGet softmap e.1 with _ | s
            · intro v' cs' hx
              simp [alGet] at hx
            · intro v' cs' hx c' hc'
              exact hinv e.1 s hg v' cs' hx c' hc'
          by_cases hany : e.2.fileT.any (fun x => x.2.Version = v)
          · rw [if_pos hany] at hvc
            have hcs : cs = sortStrings
                (oldClustersD ((alGet softmap e.1).getD []) v ++
                  entryClustersFor clusters e.2 v) := by
              injection hvc with h1
              injection h1 with h2
              exact h2.symm
            rw [hcs] at hc
            have hc' := (sortStrings_perm _).mem_iff.mp hc
            rw [hpd c]
            rcases List.mem_append.mp hc' with hmem | hmem
            · -- from the previous cluster list: covered by the invariant
              unfold oldClustersD at hmem
              rcases hg : alGet ((alGet softmap e.1).getD []) v
                with _ | pv <;> rw [hg] at hmem
              · simp at hmem
              · rcases pv with cs₀ | d₀
                · have := hinv₀ v cs₀ hg c hmem
                  rcases hx : pkgDefaultOf ((alGet softmap e.1).getD []) c
                    with _ | w
                  · rw [hx] at this; simp at this
                  · rfl
                · simp at hmem
            · have hcl : clusters.contains c :=
                List.elem_iff.mpr (mem_filesClustersFor hmem)
              rcases hx : pkgDefaultOf ((alGet softmap e.1).getD []) c
                with _ | w
              · simp only [Option.orElse, hcl, if_pos hcl]
                obtain ⟨dv, hdv⟩ := Option.isSome_iff_exists.mp hisSome
                rw [hdv]
                simp
              · rfl
          · rw [if_neg hany] at hvc
            have := hinv₀ v cs hvc c hc
            rw [hpd c]
            rcases hx : pkgDefaultOf ((alGet softmap e.1).getD []) c
              with _ | w
            · rw [hx] at this; simp at this
            · rfl
      · rw [if_neg hn] at hget
        exact hinv n soft hget v cs hvc c hc

theorem mpathFold_inv {spiderT : SpiderT} {mpmap : PyDict (List String)} :
    ∀ (seq : List String) (softmap softmap' : SoftMap),
      seq.foldlM (processMpath spiderT mpmap) softmap = .ok softmap' →
      (∀ n soft, alGet softmap n = some soft →
        ∀ v cs, alGet soft v = some (.clusters cs) →
          ∀ c ∈ cs, (pkgDefaultOf soft c).isSome) →
      ∀ n soft, alGet softmap' n = some soft →
        ∀ v cs, alGet soft v = some (.clusters cs) →
          ∀ c ∈ cs, (pkgDefaultOf soft c).isSome := by
  intro seq
  induction seq with
  | nil =>
    intro softmap softmap' h hinv
    simp only [List.foldlM_nil, pure, Except.pure, Except.ok.injEq] at h
    subst h
    exact hinv
  | cons mp rest ih =>
    intro softmap softmap' h hinv
    rw [foldlM_except_cons] at h
    rcases hstep : processMpath spiderT mpmap softmap mp
      with err | sm₂ <;> rw [hstep] at h
    · simp at h
    · obtain ⟨clusters, nds, _, _, hfold⟩ := processMpath_ok hstep
      exact ih sm₂ softmap' h (nameFold_inv nds softmap sm₂ hfold hinv)

/-- C10: in every SoftwareMap `software_map` returns without raising,
each cluster identity appearing in a version entry's cluster list of a
package also appears among the keys of that package's defaults map, so
the Cluster View Materializer's per-version lookups always find an
entry created from the defaults keys. -/
theorem c10_theorem {spiderT : SpiderT} {mpmap : PyDict (List String)}
    {clusterData : List (List String)} {m : SoftMap}
    (h : software_map spiderT mpmap clusterData = .ok m) :
    ∀ n soft, alGet m n = some soft →
      ∀ v cs, alGet soft v = some (.clusters cs) →
        ∀ c ∈ cs, c ∈ defaultsKeys soft := by
  unfold software_map at h
  intro n soft hget v cs hvc c hc
  rw [mem_defaultsKeys_iff]
  refine mpathFold_inv _ [] m h ?_ n soft hget v cs hvc c hc
  intro n' soft' hx
  simp [alGet] at hx

/-- C10 (witness): in the duplicate-cluster run the cluster `c1` listed
under version `1` of `foo` indeed has a recorded default. -/
theorem c10_witness :
    "c1" ∈ defaultsKeys [("1", PkgVal.clusters ["c1", "c1"]),
      (".default", PkgVal.defaults [("c1", "1")])] :=
  @c10_theorem ex5spider ex3mpmap []
    [("foo", [("1", PkgVal.clusters ["c1", "c1"]),
      (".default", PkgVal.defaults [("c1", "1")])])] rfl "foo"
    [("1", PkgVal.clusters ["c1", "c1"]),
      (".default", PkgVal.defaults [("c1", "1")])] rfl
    "1" ["c1", "c1"] rfl "c1" (by decide)

/-- Unfolding equation for `processPackage` on destructured
arguments. -/
theorem processPackage_eq {clview : ClView} {outmap : SoftMap}
    {name : String} {vdata : PkgMap} :
    processPackage (clview, outmap) (name, vdata) =
      match alGet vdata DEFAULTKEY with
      | some (.clusters _) =>
        .error "AttributeError: list object has no attribute keys"
      | none => .error ("KeyError: " ++ DEFAULTKEY)
      | some (.defaults defaults) =>
        match (alErase vdata DEFAULTKEY).foldlM
            (fun cv e =>
              (clusterKeysOf e.2).foldlM (appendVersion name e.1) cv)
            (ensureEntries name defaults clview) with
        | .error e => .error e
        | .ok cv₂ =>
          match defaults.foldlM (finalizeCluster name) cv₂ with
          | .error e => .error e
          | .ok cv₃ =>
            .ok (cv₃, outmap ++ [(name, alErase vdata DEFAULTKEY)]) := rfl

/-- One package step of the materializer appends the package with its
defaults entry popped to the carried softmap state. -/
theorem processPackage_out {st : ClView × SoftMap} {e : String × PkgMap}
    {st' : ClView × SoftMap} (h : processPackage st e = .ok st') :
    st'.2 = st.2 ++ [(e.1, alErase e.2 DEFAULTKEY)] := by
  obtain ⟨clview, outmap⟩ := st
  obtain ⟨name, vdata⟩ := e
  rw [processPackage_eq] at h
  rcases hdk : alGet vdata DEFAULTKEY with _ | pv <;> rw [hdk] at h
  · exact Except.noConfusion h
  · rcases pv with cs | defaults
    · exact Except.noConfusion h
    · have h2 : (match (alErase vdata DEFAULTKEY).foldlM
            (fun cv e =>
              (clusterKeysOf e.2).foldlM (appendVersion name e.1) cv)
            (ensureEntries name defaults clview) with
          | Except.error e =>
            (Except.error e : Except String (ClView × SoftMap))
          | Except.ok cv₂ =>
            match defaults.foldlM (finalizeCluster name) cv₂ with
            | Except.error e => Except.error e
            | Except.ok cv₃ =>
              Except.ok (cv₃, outmap ++ [(name, alErase vdata DEFAULTKEY)])) =
          Except.ok st' := h
      clear h
      rcases hf₁ : (alErase vdata DEFAULTKEY).foldlM
          (fun cv e =>
            (clusterKeysOf e.2).foldlM (appendVersion name e.1) cv)
          (ensureEntries name defaults clview) with err | cv₂ <;>
        rw [hf₁] at h2
      · exact Except.noConfusion h2
      · have h3 : (match defaults.foldlM (finalizeCluster name) cv₂ with
            | Except.error e =>
              (Except.error e : Except String (ClView × SoftMap))
            | Except.ok cv₃ =>
              Except.ok (cv₃, outmap ++ [(name, alErase vdata DEFAULTKEY)])) =
            Except.ok st' := h2
        clear h2
        rcases hf₂ : defaults.foldlM (finalizeCluster name) cv₂
            with err | cv₃ <;> rw [hf₂] at h3
        · exact Except.noConfusion h3
        · have h4 : (Except.ok
              (cv₃, outmap ++ [(name, alErase vdata DEFAULTKEY)]) :
              Except String (ClView × SoftMap)) = Except.ok st' := h3
          injection h4 with h5
          rw [← h5]

/-- Folding the materializer over a package list appends every
package (with defaults popped) to the carried output map. -/
theorem cvFold_out (l : List (String × PkgMap)) (st st' : ClView × SoftMap)
    (h : l.foldlM processPackage st = .ok st') :
    st'.2 = st.2 ++ l.map (fun e => (e.1, alErase e.2 DEFAULTKEY)) := by
  induction l generalizing st with
  | nil =>
    simp only [List.foldlM_nil, pure, Except.pure, Except.ok.injEq] at h
    rw [← h]
    simp
  | cons e l ih =>
    rw [foldlM_except_cons] at h
    rcases hp : processPackage st e with err | st₁ <;> rw [hp] at h
    · exact Except.noConfusion h
    · have h1 := ih st₁ h
      have h2 := processPackage_out hp
      rw [h1, h2]
      simp

/-- C9: a successful `software_cluster_view` run consumes its input:
the softmap is left with every package's reserved defaults entry
(`.default`) removed, while every other (version → clusters) entry of
every package is unchanged. -/
theorem c9_theorem {softmap : SoftMap} {cv : ClView} {out : SoftMap}
    (h : software_cluster_view softmap = .ok (cv, out))
    (hWF : ∀ e ∈ softmap, (alKeys e.2).Nodup) :
    out = softmap.map (fun e => (e.1, alErase e.2 DEFAULTKEY))
    ∧ (∀ e ∈ softmap, alGet (alErase e.2 DEFAULTKEY) DEFAULTKEY = none)
    ∧ ∀ e ∈ softmap, ∀ k, k ≠ DEFAULTKEY →
        alGet (alErase e.2 DEFAULTKEY) k = alGet e.2 k := by
  refine ⟨?_, ?_, ?_⟩
  · have := cvFold_out softmap ([], []) (cv, out) h
    simpa using this
  · intro e he
    exact alGet_alErase_self e.2 DEFAULTKEY (hWF e he)
  · intro e he k hk
    exact alGet_alErase_ne e.2 DEFAULTKEY k (fun hh => hk hh.symm)

/-- C9 (witness): the materializer applied to the `ex6spider` softmap
pops `.default` out of `foo`'s map and keeps both version entries. -/
theorem c9_witness :
    ([("foo", [("1", PkgVal.clusters ["c1", "c1"]),
       ("2", PkgVal.clusters ["c1"])])] : SoftMap) =
      ([("foo", [("1", PkgVal.clusters ["c1", "c1"]),
         ("2", PkgVal.clusters ["c1"]),
         (".default", PkgVal.defaults [("c1", "2")])])] : SoftMap).map
        (fun e => (e.1, alErase e.2 DEFAULTKEY))
    ∧ (∀ e ∈ ([("foo", [("1", PkgVal.clusters ["c1", "c1"]),
         ("2", PkgVal.clusters ["c1"]),
         (".default", PkgVal.defaults [("c1", "2")])])] : SoftMap),
        alGet (alErase e.2 DEFAULTKEY) DEFAULTKEY = none)
    ∧ ∀ e ∈ ([("foo", [("1", PkgVal.clusters ["c1", "c1"]),
         ("2", PkgVal.clusters ["c1"]),
         (".default", PkgVal.defaults [("c1", "2")])])] : SoftMap),
        ∀ k, k ≠ DEFAULTKEY →
          alGet (alErase e.2 DEFAULTKEY) k = alGet e.2 k :=
  c9_theorem (by rfl) (by decide)

/-! ### The materializer's effect on individual (cluster, name) slots -/

/-- Looking up a key/value pair that is a member of a dict with
duplicate-free keys yields exactly its value. -/
theorem alGet_of_mem_nodup {m : PyDict β} {p : String × β}
    (hnd : (alKeys m).Nodup) (hp : p ∈ m) : alGet m p.1 = some p.2 := by
  induction m with
  | nil => cases hp
  | cons e rest ih =>
    obtain ⟨k₀, v₀⟩ := e
    have hcons : alKeys ((k₀, v₀) :: rest) = k₀ :: alKeys rest := rfl
    rw [hcons, List.nodup_cons] at hnd
    rcases List.mem_cons.mp hp with h | h
    · subst h
      simp [alGet]
    · have hne : k₀ ≠ p.1 := by
        intro hh
        exact hnd.1 (hh ▸ List.mem_map.mpr ⟨p, h, rfl⟩)
      simp only [alGet, if_neg hne]
      exact ih hnd.2 h

/-- Slot lookup after replacing one cluster's inner dict. -/
theorem clviewVersions_alInsert (cv : ClView) (cluster : String)
    (clsoft : PyDict (List String)) (c n : String) :
    clviewVersions (alInsert cv cluster clsoft) c n =
      if cluster = c then alGet clsoft n else clviewVersions cv c n := by
  unfold clviewVersions
  rw [alGet_alInsert]
  by_cases h : cluster = c <;> simp [h]

/-- One iteration of the `ensureEntries` loop. -/
def ensureStep (name : String) (cv : ClView) (cluster : String) : ClView :=
  alInsert (alSetdefault cv cluster []).2 cluster
    (alSetdefault (alSetdefault cv cluster []).1 name []).2

/-- Unfolding equation for `ensureEntries` on a cons cell. -/
theorem ensureEntries_cons (name c₀ x : String) (ds : PyDict String)
    (cv : ClView) :
    ensureEntries name ((c₀, x) :: ds) cv =
      ensureEntries name ds (ensureStep name cv c₀) := rfl

/-- The first component of `setdefault` on a cluster view is that
cluster's inner dict (empty when absent), so its lookups agree with
`clviewVersions`. -/
theorem alGet_alSetdefault_fst_cvv (cv : ClView) (c₀ n : String) :
    alGet (alSetdefault cv c₀ ([] : PyDict (List String))).1 n =
      clviewVersions cv c₀ n := by
  rcases h : alGet cv c₀ with _ | cs <;>
    simp [alSetdefault, h, clviewVersions, alGet]

/-- Slot content after one `ensureEntries` iteration. -/
theorem ensureStep_cvv (name : String) (cv : ClView) (c₀ c n : String) :
    clviewVersions (ensureStep name cv c₀) c n =
      if c₀ = c then
        (if name = n then some ((clviewVersions cv c₀ n).getD [])
         else clviewVersions cv c₀ n)
      else clviewVersions cv c n := by
  unfold ensureStep
  rw [clviewVersions_alInsert]
  by_cases h : c₀ = c
  · rw [if_pos h, if_pos h, alGet_alSetdefault_snd]
    by_cases hn : name = n
    · rw [if_pos hn, if_pos hn, alGet_alSetdefault_fst_cvv]
      rw [hn]
    · rw [if_neg hn, if_neg hn, alGet_alSetdefault_fst_cvv]
  · rw [if_neg h, if_neg h]
    unfold clviewVersions
    rw [alGet_alSetdefault_snd, if_neg h]

/-- `ensureEntries` never touches slots of other package names. -/
theorem ensureEntries_other (name : String) (ds : PyDict String)
    (cv : ClView) (c n : String) (hn : n ≠ name) :
    clviewVersions (ensureEntries name ds cv) c n =
      clviewVersions cv c n := by
  induction ds generalizing cv with
  | nil => rfl
  | cons e ds ih =>
    obtain ⟨c₀, x⟩ := e
    rw [ensureEntries_cons, ih, ensureStep_cvv]
    have hn' : ¬ name = n := fun hh => hn hh.symm
    by_cases h : c₀ = c
    · rw [if_pos h, if_neg hn', h]
    · rw [if_neg h]

/-- `ensureEntries` guarantees the package's own slots exist for every
cluster of the defaults dict, preserving already-collected content. -/
theorem ensureEntries_self (name : String) (ds : PyDict String)
    (cv : ClView) (c : String) :
    clviewVersions (ensureEntries name ds cv) c name =
      if (alKeys ds).contains c then
        some ((clviewVersions cv c name).getD [])
      else clviewVersions cv c name := by
  induction ds generalizing cv with
  | nil => rfl
  | cons e ds ih =>
    obtain ⟨c₀, x⟩ := e
    rw [ensureEntries_cons, ih, ensureStep_cvv]
    have hkeys : alKeys ((c₀, x) :: ds) = c₀ :: alKeys ds := rfl
    rw [hkeys]
    by_cases h : c₀ = c
    · subst h
      rw [if_pos rfl]
      by_cases hd : (alKeys ds).contains c₀ <;>
        simp [hd, List.contains_cons]
    · rw [if_neg h]
      have hcons : ((c₀ :: alKeys ds).contains c) = ((alKeys ds).contains c) := by
        simp only [List.contains_cons, Bool.or_eq_true, beq_iff_eq]
        have : ¬ c = c₀ := fun hh => h hh.symm
        simp [this]
      rw [hcons]

/-- One cluster view extends another when every slot either keeps its
content or (for the package being processed) gains a suffix. -/
def viewExtends (name : String) (cv₀ cv₁ : ClView) : Prop :=
  ∀ c n, ∃ extra : List String,
    clviewVersions cv₁ c n =
      (clviewVersions cv₀ c n).map (fun vs => vs ++ extra)
    ∧ (n ≠ name → extra = [])

theorem viewExtends_refl (name : String) (cv : ClView) :
    viewExtends name cv cv := by
  intro c n
  refine ⟨[], ?_, fun _ => rfl⟩
  rcases clviewVersions cv c n with _ | vs <;> simp

theorem viewExtends_trans {name : String} {cv₀ cv₁ cv₂ : ClView}
    (h₁ : viewExtends name cv₀ cv₁) (h₂ : viewExtends name cv₁ cv₂) :
    viewExtends name cv₀ cv₂ := by
  intro c n
  obtain ⟨e₁, he₁, hn₁⟩ := h₁ c n
  obtain ⟨e₂, he₂, hn₂⟩ := h₂ c n
  refine ⟨e₁ ++ e₂, ?_, ?_⟩
  · rw [he₂, he₁]
    rcases clviewVersions cv₀ c n with _ | vs <;> simp
  · intro hn
    rw [hn₁ hn, hn₂ hn]
    rfl

/-- Slot lookup through a cluster whose inner dict is known. -/
theorem clviewVersions_eq_some {cv : ClView} {cluster : String}
    {clsoft : PyDict (List String)}
    (hc : alGet cv cluster = some clsoft) (n : String) :
    clviewVersions cv cluster n = alGet clsoft n := by
  unfold clviewVersions
  rw [hc]

/-- A successful version append extends the view: the target slot gains
one element at the end, every other slot is untouched. -/
theorem appendVersion_ext {name version : String} {cv : ClView}
    {cluster : String} {cv' : ClView}
    (h : appendVersion name version cv cluster = .ok cv') :
    viewExtends name cv cv' := by
  unfold appendVersion at h
  rcases hc : alGet cv cluster with _ | clsoft <;> rw [hc] at h
  · exact Except.noConfusion h
  · have h2 : (match alGet clsoft name with
        | none => (Except.error ("KeyError: " ++ name) : Except String ClView)
        | some versions =>
          Except.ok (alInsert cv cluster
            (alInsert clsoft name (versions ++ [version])))) = .ok cv' := h
    clear h
    rcases hn : alGet clsoft name with _ | versions <;> rw [hn] at h2
    · exact Except.noConfusion h2
    · have h3 : Except.ok (alInsert cv cluster
          (alInsert clsoft name (versions ++ [version]))) =
          Except.ok cv' := h2
      injection h3 with h4
      subst h4
      intro c n
      rw [clviewVersions_alInsert]
      by_cases hcc : cluster = c
      · rw [if_pos hcc, alGet_alInsert]
        by_cases hnn : name = n
        · refine ⟨[version], ?_, fun hh => absurd hnn.symm hh⟩
          rw [if_pos hnn]
          have hvv : clviewVersions cv c n = some versions := by
            rw [← hcc, ← hnn, clviewVersions_eq_some hc, hn]
          rw [hvv]
          rfl
        · refine ⟨[], ?_, fun _ => rfl⟩
          rw [if_neg hnn]
          have hvv : clviewVersions cv c n = alGet clsoft n := by
            rw [← hcc]
            exact clviewVersions_eq_some hc n
          rw [hvv]
          rcases alGet clsoft n with _ | vs <;> simp
      · refine ⟨[], ?_, fun _ => rfl⟩
        rw [if_neg hcc]
        rcases clviewVersions cv c n with _ | vs <;> simp

/-- Appending one version to all its clusters extends the view. -/
theorem appendClusters_ext (name version : String) (cs : List String)
    (cv cv' : ClView)
    (h : cs.foldlM (appendVersion name version) cv = .ok cv') :
    viewExtends name cv cv' := by
  induction cs generalizing cv with
  | nil =>
    simp only [List.foldlM_nil, pure, Except.pure, Except.ok.injEq] at h
    rw [h]
    exact viewExtends_refl name cv'
  | cons c₀ cs ih =>
    rw [foldlM_except_cons] at h
    rcases hs : appendVersion name version cv c₀ with err | cv₁ <;>
      rw [hs] at h
    · exact Except.noConfusion h
    · exact viewExtends_trans (appendVersion_ext hs) (ih cv₁ h)

/-- The whole append phase of one package extends the view. -/
theorem appendFold_ext (name : String) (l : List (String × PkgVal))
    (cv cv' : ClView)
    (h : l.foldlM
        (fun cv e => (clusterKeysOf e.2).foldlM (appendVersion name e.1) cv)
        cv = .ok cv') :
    viewExtends name cv cv' := by
  induction l generalizing cv with
  | nil =>
    simp only [List.foldlM_nil, pure, Except.pure, Except.ok.injEq] at h
    rw [h]
    exact viewExtends_refl name cv'
  | cons e l ih =>
    rw [foldlM_except_cons] at h
    rcases hs : (clusterKeysOf e.2).foldlM (appendVersion name e.1) cv
        with err | cv₁ <;> rw [hs] at h
    · exact Except.noConfusion h
    · exact viewExtends_trans (appendClusters_ext name e.1 _ cv cv₁ hs)
        (ih cv₁ h)

/-- A successful finalize replaces the target slot with the default in
front of the sorted remainder and keeps every other slot. -/
theorem finalizeCluster_ok {name : String} {cv : ClView}
    {cluster d : String} {cv' : ClView}
    (h : finalizeCluster name cv (cluster, d) = .ok cv') :
    ∃ vs, clviewVersions cv cluster name = some vs
      ∧ ∀ c n, clviewVersions cv' c n =
          if cluster = c then
            (if name = n then
              some (d :: (sort_recent_versions vs).erase d)
             else clviewVersions cv c n)
          else clviewVersions cv c n := by
  have h2 : (match alGet cv cluster with
      | none => (Except.error ("KeyError: " ++ cluster) :
          Except String ClView)
      | some clsoft =>
        match alGet clsoft name with
        | none => Except.error ("KeyError: " ++ name)
        | some vs =>
          if (sort_recent_versions vs).contains d then
            Except.ok (alInsert cv cluster (alInsert clsoft name
              (d :: (sort_recent_versions vs).erase d)))
          else
            Except.error ("Unable to remove default " ++ d ++
              " from versions for " ++ name ++ " cluster " ++ cluster)) =
      .ok cv' := h
  clear h
  rcases hc : alGet cv cluster with _ | clsoft <;> rw [hc] at h2
  · exact Except.noConfusion h2
  · have h3 : (match alGet clsoft name with
        | none => (Except.error ("KeyError: " ++ name) :
            Except String ClView)
        | some vs =>
          if (sort_recent_versions vs).contains d then
            Except.ok (alInsert cv cluster (alInsert clsoft name
              (d :: (sort_recent_versions vs).erase d)))
          else
            Except.error ("Unable to remove default " ++ d ++
              " from versions for " ++ name ++ " cluster " ++ cluster)) =
        .ok cv' := h2
    clear h2
    rcases hn : alGet clsoft name with _ | vs <;> rw [hn] at h3
    · exact Except.noConfusion h3
    · have h4 : (if (sort_recent_versions vs).contains d then
          Except.ok (alInsert cv cluster (alInsert clsoft name
            (d :: (sort_recent_versions vs).erase d)))
        else
          (Except.error ("Unable to remove default " ++ d ++
            " from versions for " ++ name ++ " cluster " ++ cluster) :
            Except String ClView)) = .ok cv' := h3
      clear h3
      by_cases hct : (sort_recent_versions vs).contains d
      · rw [if_pos hct] at h4
        injection h4 with h5
        subst h5
        refine ⟨vs, ?_, ?_⟩
        · rw [clviewVersions_eq_some hc, hn]
        · intro c n
          rw [clviewVersions_alInsert]
          by_cases hcc : cluster = c
          · rw [if_pos hcc, if_pos hcc, alGet_alInsert]
            by_cases hnn : name = n
            · rw [if_pos hnn, if_pos hnn]
            · rw [if_neg hnn, if_neg hnn, ← hcc]
              exact (clviewVersions_eq_some hc n).symm
          · rw [if_neg hcc, if_neg hcc]
      · rw [if_neg hct] at h4
        exact Except.noConfusion h4

/-- The finalize phase: with duplicate-free defaults keys, each listed
cluster's slot becomes its default followed by the sorted remainder,
and every slot outside the defaults (or of another name) is kept. -/
theorem finalizeFold (name : String) (ds : PyDict String)
    (cv cv' : ClView) (hnd : (alKeys ds).Nodup)
    (h : ds.foldlM (finalizeCluster name) cv = .ok cv') :
    (∀ c n, (n ≠ name ∨ c ∉ alKeys ds) →
        clviewVersions cv' c n = clviewVersions cv c n)
    ∧ ∀ p ∈ ds, ∃ vs, clviewVersions cv p.1 name = some vs
        ∧ clviewVersions cv' p.1 name =
            some (p.2 :: (sort_recent_versions vs).erase p.2) := by
  induction ds generalizing cv with
  | nil =>
    simp only [List.foldlM_nil, pure, Except.pure, Except.ok.injEq] at h
    subst h
    exact ⟨fun c n _ => rfl, fun p hp => absurd hp (List.not_mem_nil p)⟩
  | cons p₀ ds ih =>
    obtain ⟨c₀, d₀⟩ := p₀
    have hkeys : alKeys ((c₀, d₀) :: ds) = c₀ :: alKeys ds := rfl
    rw [hkeys, List.nodup_cons] at hnd
    obtain ⟨hc₀, hnd'⟩ := hnd
    rw [foldlM_except_cons] at h
    rcases hs : finalizeCluster name cv (c₀, d₀) with err | cv₁ <;>
      rw [hs] at h
    · exact Except.noConfusion h
    · obtain ⟨hun, hmem⟩ := ih cv₁ hnd' h
      obtain ⟨vs₀, hvs₀, hstep⟩ := finalizeCluster_ok hs
      constructor
      · intro c n hcn
        rw [hkeys] at hcn
        have hstep' : clviewVersions cv₁ c n = clviewVersions cv c n := by
          rw [hstep c n]
          rcases hcn with hn | hc
          · have hn' : ¬ name = n := fun hh => hn hh.symm
            by_cases hcc : c₀ = c
            · rw [if_pos hcc, if_neg hn']
            · rw [if_neg hcc]
          · have hcc : ¬ c₀ = c := fun hh => hc (by
              rw [← hh]
              exact List.mem_cons_self c₀ (alKeys ds))
            rw [if_neg hcc]
        have hun' : clviewVersions cv' c n = clviewVersions cv₁ c n := by
          apply hun c n
          rcases hcn with hn | hc
          · exact Or.inl hn
          · exact Or.inr fun hm => hc (List.mem_cons_of_mem c₀ hm)
        rw [hun', hstep']
      · intro p hp
        rcases List.mem_cons.mp hp with hp₀ | hp'
        · subst hp₀
          refine ⟨vs₀, hvs₀, ?_⟩
          have h1 : clviewVersions cv' c₀ name =
              clviewVersions cv₁ c₀ name := hun c₀ name (Or.inr hc₀)
          rw [h1, hstep c₀ name, if_pos rfl, if_pos rfl]
        · obtain ⟨vs, h1, h2⟩ := hmem p hp'
          have hpk : p.1 ∈ alKeys ds := List.mem_map.mpr ⟨p, hp', rfl⟩
          have hcc : ¬ c₀ = p.1 := fun hh => hc₀ (hh ▸ hpk)
          have h1' : clviewVersions cv p.1 name = some vs := by
            rw [← h1, hstep p.1 name, if_neg hcc]
          exact ⟨vs, h1', h2⟩

/-- One package step of the materializer: slots of other names are
untouched, and when the package's name had no slot before, every slot
it ends up with is its per-cluster default followed by a descending
remainder. -/
theorem processPackage_view {cv₀ : ClView} {out₀ : SoftMap}
    {name : String} {vdata : PkgMap} {cv₁ : ClView} {out₁ : SoftMap}
    (h : processPackage (cv₀, out₀) (name, vdata) = .ok (cv₁, out₁))
    (hDN : ∀ d, alGet vdata DEFAULTKEY = some (PkgVal.defaults d) →
      (alKeys d).Nodup) :
    (∀ c n, n ≠ name → clviewVersions cv₁ c n = clviewVersions cv₀ c n)
    ∧ ((∀ c, clviewVersions cv₀ c name = none) →
       ∀ c vs, clviewVersions cv₁ c name = some vs →
         ∃ defaults d rest,
           alGet vdata DEFAULTKEY = some (PkgVal.defaults defaults)
           ∧ alGet defaults c = some d ∧ vs = d :: rest
           ∧ rest.Pairwise (verGe · ·)) := by
  rw [processPackage_eq] at h
  rcases hdk : alGet vdata DEFAULTKEY with _ | pv <;> rw [hdk] at h
  · exact Except.noConfusion h
  · rcases pv with cs | defaults
    · exact Except.noConfusion h
    · have h2 : (match (alErase vdata DEFAULTKEY).foldlM
            (fun cv e =>
              (clusterKeysOf e.2).foldlM (appendVersion name e.1) cv)
            (ensureEntries name defaults cv₀) with
          | Except.error e =>
            (Except.error e : Except String (ClView × SoftMap))
          | Except.ok cv₂ =>
            match defaults.foldlM (finalizeCluster name) cv₂ with
            | Except.error e => Except.error e
            | Except.ok cv₃ =>
              Except.ok (cv₃, out₀ ++ [(name, alErase vdata DEFAULTKEY)])) =
          Except.ok (cv₁, out₁) := h
      clear h
      rcases hf₁ : (alErase vdata DEFAULTKEY).foldlM
          (fun cv e =>
            (clusterKeysOf e.2).foldlM (appendVersion name e.1) cv)
          (ensureEntries name defaults cv₀) with err | cvA <;>
        rw [hf₁] at h2
      · exact Except.noConfusion h2
      · have h3 : (match defaults.foldlM (finalizeCluster name) cvA with
            | Except.error e =>
              (Except.error e : Except String (ClView × SoftMap))
            | Except.ok cv₃ =>
              Except.ok (cv₃, out₀ ++ [(name, alErase vdata DEFAULTKEY)])) =
            Except.ok (cv₁, out₁) := h2
        clear h2
        rcases hf₂ : defaults.foldlM (finalizeCluster name) cvA
            with err | cvF <;> rw [hf₂] at h3
        · exact Except.noConfusion h3
        · have h4 : (Except.ok
              (cvF, out₀ ++ [(name, alErase vdata DEFAULTKEY)]) :
              Except String (ClView × SoftMap)) =
              Except.ok (cv₁, out₁) := h3
          injection h4 with h5
          rw [Prod.mk.injEq] at h5
          obtain ⟨h5a, h5b⟩ := h5
          subst h5a
          have hExt := appendFold_ext name (alErase vdata DEFAULTKEY)
            (ensureEntries name defaults cv₀) cvA hf₁
          have hnd : (alKeys defaults).Nodup := hDN defaults hdk
          obtain ⟨hun, hmem⟩ := finalizeFold name defaults cvA cvF hnd hf₂
          constructor
          · intro c n hn
            have e1 : clviewVersions cvF c n = clviewVersions cvA c n :=
              hun c n (Or.inl hn)
            obtain ⟨extra, he, hne⟩ := hExt c n
            rw [hne hn] at he
            have e2 : clviewVersions cvA c n =
                clviewVersions (ensureEntries name defaults cv₀) c n := by
              rw [he]
              rcases clviewVersions (ensureEntries name defaults cv₀) c n
                with _ | vs <;> simp
            have e3 := ensureEntries_other name defaults cv₀ c n hn
            rw [e1, e2, e3]
          · intro hfresh c vs hvs
            have hens : clviewVersions
                (ensureEntries name defaults cv₀) c name =
                if (alKeys defaults).contains c then some [] else none := by
              rw [ensureEntries_self]
              by_cases hc : (alKeys defaults).contains c
              · rw [if_pos hc, if_pos hc, hfresh c]
                rfl
              · rw [if_neg hc, if_neg hc, hfresh c]
            by_cases hc : (alKeys defaults).contains c
            · have hcmem : c ∈ alKeys defaults := List.elem_iff.mp hc
              obtain ⟨p, hp, hp1⟩ := List.mem_map.mp hcmem
              obtain ⟨vs', h1, h2⟩ := hmem p hp
              rw [hp1] at h2
              have hsome : some vs =
                  some (p.2 :: (sort_recent_versions vs').erase p.2) := by
                rw [← hvs, ← h2]
              injection hsome with hvseq
              refine ⟨defaults, p.2,
                (sort_recent_versions vs').erase p.2, rfl, ?_, hvseq, ?_⟩
              · have hg := alGet_of_mem_nodup hnd hp
                rw [hp1] at hg
                exact hg
              · exact (sort_recent_versions_pairwise vs').sublist
                  (List.erase_sublist _ _)
            · have hnotmem : c ∉ alKeys defaults :=
                fun hm => hc (List.elem_iff.mpr hm)
              obtain ⟨extra, he, _⟩ := hExt c name
              rw [hens, if_neg hc] at he
              have hA : clviewVersions cvA c name = none := by
                rw [he]
                rfl
              have hF : clviewVersions cvF c name = none := by
                rw [hun c name (Or.inr hnotmem), hA]
              rw [hF] at hvs
              exact Option.noConfusion hvs

/-- A recorded default is read off the package's defaults dict. -/
theorem recordedDefault_of_defaults {softmap : SoftMap} {name : String}
    {vdata : PkgMap} {defaults : PyDict String}
    (hg : alGet softmap name = some vdata)
    (hdk : alGet vdata DEFAULTKEY = some (PkgVal.defaults defaults))
    (cluster : String) :
    recordedDefault softmap name cluster = alGet defaults cluster := by
  unfold recordedDefault
  rw [hg]
  show (match alGet vdata DEFAULTKEY with
    | some (PkgVal.defaults d) => alGet d cluster
    | _ => none) = alGet defaults cluster
  rw [hdk]

/-- Folding the materializer over a package list: every slot of the
result either predates the fold or belongs to a listed package and is
that package's per-cluster default followed by a descending remainder. -/
theorem cvFold_view (l : List (String × PkgMap))
    (st₀ st' : ClView × SoftMap)
    (h : l.foldlM processPackage st₀ = .ok st')
    (hnd : (alKeys l).Nodup)
    (hWFd : ∀ e ∈ l, ∀ d,
      alGet e.2 DEFAULTKEY = some (PkgVal.defaults d) → (alKeys d).Nodup)
    (hfr : ∀ e ∈ l, ∀ c, clviewVersions st₀.1 c e.1 = none) :
    ∀ c n vs, clviewVersions st'.1 c n = some vs →
      clviewVersions st₀.1 c n = some vs
      ∨ ∃ vdata defaults d rest, (n, vdata) ∈ l
          ∧ alGet vdata DEFAULTKEY = some (PkgVal.defaults defaults)
          ∧ alGet defaults c = some d ∧ vs = d :: rest
          ∧ rest.Pairwise (verGe · ·) := by
  induction l generalizing st₀ with
  | nil =>
    simp only [List.foldlM_nil, pure, Except.pure, Except.ok.injEq] at h
    subst h
    intro c n vs hvs
    exact Or.inl hvs
  | cons e l ih =>
    obtain ⟨name, vdata⟩ := e
    obtain ⟨cv₀, out₀⟩ := st₀
    have hkeys : alKeys ((name, vdata) :: l) = name :: alKeys l := rfl
    rw [hkeys, List.nodup_cons] at hnd
    obtain ⟨hname, hnd'⟩ := hnd
    rw [foldlM_except_cons] at h
    rcases hs : processPackage (cv₀, out₀) (name, vdata)
        with err | st₁ <;> rw [hs] at h
    · exact Except.noConfusion h
    · obtain ⟨cv₁, out₁⟩ := st₁
      have hDN : ∀ d, alGet vdata DEFAULTKEY =
          some (PkgVal.defaults d) → (alKeys d).Nodup :=
        fun d hd => hWFd (name, vdata) (List.mem_cons_self _ _) d hd
      obtain ⟨hother, hself⟩ := processPackage_view hs hDN
      have hfr' : ∀ e ∈ l, ∀ c, clviewVersions cv₁ c e.1 = none := by
        intro e he c
        have hne : e.1 ≠ name := by
          intro hh
          exact hname (hh ▸ List.mem_map.mpr ⟨e, he, rfl⟩)
        rw [hother c e.1 hne]
        exact hfr e (List.mem_cons_of_mem _ he) c
      have hWFd' : ∀ e ∈ l, ∀ d,
          alGet e.2 DEFAULTKEY = some (PkgVal.defaults d) →
          (alKeys d).Nodup :=
        fun e he => hWFd e (List.mem_cons_of_mem _ he)
      intro c n vs hvs
      rcases ih (cv₁, out₁) h hnd' hWFd' hfr' c n vs hvs with h1 | h1
      · have h1' : clviewVersions cv₁ c n = some vs := h1
        by_cases hn : n = name
        · subst hn
          have hfresh : ∀ c', clviewVersions cv₀ c' n = none :=
            fun c' => hfr (n, vdata) (List.mem_cons_self _ _) c'
          obtain ⟨defaults, d, rest, hdk, hdc, hvseq, hpw⟩ :=
            hself hfresh c vs h1'
          exact Or.inr ⟨vdata, defaults, d, rest,
            List.mem_cons_self _ _, hdk, hdc, hvseq, hpw⟩
        · rw [hother c n hn] at h1'
          exact Or.inl h1'
      · obtain ⟨vdata', defaults, d, rest, hmem, hdk, hdc, hvseq, hpw⟩ := h1
        exact Or.inr ⟨vdata', defaults, d, rest,
          List.mem_cons_of_mem _ hmem, hdk, hdc, hvseq, hpw⟩

/-- C6 (amended): in a materialized cluster view built from a softmap
with duplicate-free package names and duplicate-free per-package
defaults keys, every (cluster, package) version list starts with the
default recorded for that pair in the input softmap, and the remaining
elements are descending under the version comparator's non-strict
order (`verGe`); ties between equal remaining entries are possible, so
the order need not be strict. -/
theorem c6_theorem {softmap : SoftMap} {cv : ClView} {out : SoftMap}
    (h : software_cluster_view softmap = .ok (cv, out))
    (hNodup : (alKeys softmap).Nodup)
    (hWFd : ∀ e ∈ softmap, ∀ d,
      alGet e.2 DEFAULTKEY = some (PkgVal.defaults d) → (alKeys d).Nodup) :
    ∀ cluster name vs, clviewVersions cv cluster name = some vs →
      ∃ d rest, vs = d :: rest
        ∧ recordedDefault softmap name cluster = some d
        ∧ rest.Pairwise (verGe · ·) := by
  intro cluster name vs hvs
  have h' : softmap.foldlM processPackage (([] : ClView), ([] : SoftMap))
      = .ok (cv, out) := h
  have hres := cvFold_view softmap ([], []) (cv, out) h' hNodup hWFd
    (fun e he c => rfl) cluster name vs hvs
  rcases hres with h1 |
    ⟨vdata, defaults, d, rest, hmem, hdk, hdc, hvseq, hpw⟩
  · exact Option.noConfusion h1
  · refine ⟨d, rest, hvseq, ?_, hpw⟩
    have hg : alGet softmap name = some vdata :=
      alGet_of_mem_nodup hNodup hmem
    rw [recordedDefault_of_defaults hg hdk, hdc]

/-- C6 (counterexample): on the softmap that `software_map` builds from
`ex6spider` (two modulepaths both serving cluster `c1`), the view's
version list for (`c1`, `foo`) is `["2", "1", "1"]`: the default `"2"`
is first, but the remainder `["1", "1"]` is not strictly descending
under the comparator, refuting the claimed strictness. -/
theorem c6_counterexample :
    software_map ex6spider ex3mpmap [] =
      .ok [("foo", [("1", PkgVal.clusters ["c1", "c1"]),
        ("2", PkgVal.clusters ["c1"]),
        (".default", PkgVal.defaults [("c1", "2")])])]
    ∧ software_cluster_view
        [("foo", [("1", PkgVal.clusters ["c1", "c1"]),
          ("2", PkgVal.clusters ["c1"]),
          (".default", PkgVal.defaults [("c1", "2")])])] =
      .ok ([("c1", [("foo", ["2", "1", "1"])])],
        [("foo", [("1", PkgVal.clusters ["c1", "c1"]),
          ("2", PkgVal.clusters ["c1"])])])
    ∧ clviewVersions [("c1", [("foo", ["2", "1", "1"])])] "c1" "foo" =
      some ["2", "1", "1"]
    ∧ recordedDefault
        [("foo", [("1", PkgVal.clusters ["c1", "c1"]),
          ("2", PkgVal.clusters ["c1"]),
          (".default", PkgVal.defaults [("c1", "2")])])] "foo" "c1" =
      some "2"
    ∧ ¬ (["1", "1"] : List String).Pairwise
        (fun a b => svCmp a b = Ordering.gt) :=
  ⟨rfl, rfl, rfl, rfl, by decide⟩

/-- C6 (witness): the amended theorem applied to the duplicate-cluster
softmap yields the default-first, non-strictly descending list. -/
theorem c6_witness :
    ∃ d rest, (["2", "1", "1"] : List String) = d :: rest
      ∧ recordedDefault
          [("foo", [("1", PkgVal.clusters ["c1", "c1"]),
            ("2", PkgVal.clusters ["c1"]),
            (".default", PkgVal.defaults [("c1", "2")])])] "foo" "c1" =
        some d
      ∧ rest.Pairwise (verGe · ·) :=
  @c6_theorem
    [("foo", [("1", PkgVal.clusters ["c1", "c1"]),
      ("2", PkgVal.clusters ["c1"]),
      (".default", PkgVal.defaults [("c1", "2")])])]
    [("c1", [("foo", ["2", "1", "1"])])]
    [("foo", [("1", PkgVal.clusters ["c1", "c1"]),
      ("2", PkgVal.clusters ["c1"])])]
    (by rfl) (by decide)
    (by
      intro e he d hd
      have he' : e = ("foo", [("1", PkgVal.clusters ["c1", "c1"]),
          ("2", PkgVal.clusters ["c1"]),
          (".default", PkgVal.defaults [("c1", "2")])]) :=
        List.mem_singleton.mp he
      subst he'
      have hd' : some (PkgVal.defaults [("c1", "2")]) =
          some (PkgVal.defaults d) := hd
      injection hd' with h1
      injection h1 with h2
      rw [← h2]
      decide)
    "c1" "foo" ["2", "1", "1"] (by rfl)
